import Mathlib

/-!
# A verification development of the `baseClone` deep-copy engine

Shallow embedding of `src/.internal/baseClone.js`: a cycle-safe, tag-dispatched
clone engine over a runtime value graph. Runtime values are modelled as a heap
(a list of object nodes addressed by index) plus immediate primitives, so that
object identity, shared references and cycles are expressible. `baseClone`
is translated line by line as a fuel-indexed function; the fuel only bounds
recursion depth and is shown sufficient (the traversal registry grows along
every recursion chain, so depth is bounded by the number of pre-existing
heap addresses).

Modelling notes, all observably faithful to the source:
* The lazily created `Stack` (line 246) is modelled as a registry list that is
  empty when absent; a not-yet-created stack and an empty stack have the same
  observable behaviour.
* The model has no prototype chains and no symbol keys, so the four key
  enumeration helpers (`keys` / `keysIn` / `getAllKeys` / `getAllKeysIn`)
  coincide on model nodes, and `copySymbols` / `copySymbolsIn` are identities;
  the selection logic between them is still mirrored.
* JS numbers are modelled as integers; no claim depends on float arithmetic.
* A customizer is a pure function of `(value, key?, parent?)` returning a
  runtime value, where returning `undefined` is the "no opinion" sentinel,
  exactly as in the source (`if (result !== undefined) return result`).
-/

namespace Lodash

/-- JS primitive values (copied by value, never cloned). -/
inductive Prim where
  | undef
  | null
  | boolean (b : Bool)
  | number (n : Int)
  | string (s : String)
  deriving DecidableEq, Repr

/-- A runtime value: a primitive, or a reference to a heap object. -/
inductive Value where
  | prim (p : Prim)
  | ref (a : Nat)
  deriving DecidableEq, Repr

/-- A heap object node, classified by the runtime tag the source dispatches on. -/
inductive Node where
  /-- `[object Object]` / `[object Arguments]`: ordered string-keyed properties. -/
  | plainN (props : List (String × Value))
  /-- `[object Array]`: ordered elements. -/
  | arrayN (elems : List Value)
  /-- A function value (`typeof value === "function"`), with own enumerable properties. -/
  | funcN (props : List (String × Value))
  /-- A binary buffer (`isBuffer`). -/
  | bufferN (bytes : List Nat)
  /-- `[object Map]`: ordered key/value entries. -/
  | mapN (entries : List (Value × Value))
  /-- `[object Set]`: ordered unique elements. -/
  | setN (elems : List Value)
  /-- `[object RegExp]`: source text, flags, and the lastIndex cursor. -/
  | regexpN (source : String) (flags : String) (lastIndex : Int)
  /-- `[object Error]`: not in `cloneableTags`. -/
  | errorN (message : String)
  /-- `[object WeakMap]`: not in `cloneableTags`. -/
  | weakMapN
  deriving DecidableEq, Repr

/-- The heap: object nodes addressed by list index; allocation appends. -/
abbrev Heap := List Node

/-- The traversal registry (`Stack`): maps visited original addresses to their clones. -/
abbrev Registry := List (Nat × Value)

/-- A customizer: `(value, key?, parent?) -> value`, `undefined` meaning no opinion. -/
abbrev Customizer := Value → Option Value → Option Value → Value

/-- Result of a clone call: the cloned value, the heap, and the registry
(`none` only when the fuel bound is exhausted). -/
abbrev CloneResult := Option (Value × Heap × Registry)

/-- The type of the recursive cloner threaded through child traversals:
`(value, key?, parent?, registry, heap)`. -/
abbrev Recur := Value → Option Value → Option Value → Registry → Heap → CloneResult

/-- Bitmask flag: deep clone. -/
def CLONE_DEEP_FLAG : Nat := 1
/-- Bitmask flag: flatten inherited properties. -/
def CLONE_FLAT_FLAG : Nat := 2
/-- Bitmask flag: clone symbol keys. -/
def CLONE_SYMBOLS_FLAG : Nat := 4

/-- `bitmask & CLONE_DEEP_FLAG`. -/
def deepBit (bitmask : Nat) : Bool := (bitmask &&& CLONE_DEEP_FLAG) != 0
/-- `bitmask & CLONE_FLAT_FLAG`. -/
def flatBit (bitmask : Nat) : Bool := (bitmask &&& CLONE_FLAT_FLAG) != 0
/-- `bitmask & CLONE_SYMBOLS_FLAG`. -/
def fullBit (bitmask : Nat) : Bool := (bitmask &&& CLONE_SYMBOLS_FLAG) != 0

/-- Heap lookup. -/
def heapGet (h : Heap) (a : Nat) : Option Node := h[a]?

/-- Heap update at an existing address. -/
def heapSet (h : Heap) (a : Nat) (n : Node) : Heap := h.set a n

/-- `Stack#get`: first entry for the given original address. -/
def stackGet (st : Registry) (a : Nat) : Option Value :=
  (st.find? (fun e => e.1 == a)).map (fun e => e.2)

/-- `Stack#set` as used at line 251: only ever called after a miss, so append. -/
def stackSet (st : Registry) (a : Nat) (v : Value) : Registry := st ++ [(a, v)]

/-- Own-property lookup on an ordered property list (first match). -/
def propGet (props : List (String × Value)) (k : String) : Option Value :=
  (props.find? (fun e => e.1 == k)).map (fun e => e.2)

/-- Property assignment preserving key order for existing keys. -/
def propSet : List (String × Value) → String → Value → List (String × Value)
  | [], k, v => [(k, v)]
  | (k', v') :: rest, k, v =>
    if k' = k then (k, v) :: rest else (k', v') :: propSet rest k v

/-- `Set#add`: append unless an equal (SameValueZero) element is present. -/
def setAdd (elems : List Value) (v : Value) : List Value :=
  if v ∈ elems then elems else elems ++ [v]

/-- `keys`: own enumerable string keys of a node. -/
def keys : Node → List String
  | Node.plainN props => props.map (fun e => e.1)
  | Node.funcN props => props.map (fun e => e.1)
  | _ => []

/-- `keysIn`: own plus inherited keys; the model has no prototype chain. -/
def keysIn (n : Node) : List String := keys n

/-- `getAllKeys`: own string plus symbol keys; the model has no symbol keys. -/
def getAllKeys (n : Node) : List String := keys n

/-- `getAllKeysIn`: `keysIn` plus symbol keys; the model has no symbol keys. -/
def getAllKeysIn (n : Node) : List String := keys n

/-- The `keysFunc` selection at lines 279-285. -/
def keysFunc (isFlat isFull : Bool) : Node → List String :=
  if isFull then (if isFlat then getAllKeysIn else getAllKeys)
  else (if isFlat then keysIn else keys)

/-- Own property list of a node (empty for non-structure nodes). -/
def propsOf : Node → List (String × Value)
  | Node.plainN props => props
  | Node.funcN props => props
  | _ => []

/-- `cloneableTags` (lines 57-81): tags supported for reconstruction. -/
def cloneableTag : Node → Bool
  | Node.plainN _ => true
  | Node.arrayN _ => true
  | Node.mapN _ => true
  | Node.setN _ => true
  | Node.regexpN _ _ _ => true
  | Node.bufferN _ => true
  | Node.funcN _ => false
  | Node.errorN _ => false
  | Node.weakMapN => false

/-- `isTypedArray` (line 274): of the modelled nodes only buffers are views. -/
def isTypedArrayN : Node → Bool
  | Node.bufferN _ => true
  | _ => false

/-- Modelled from the spec: `cloneBuffer.js` is not under `src/`. Per the spec,
a deep buffer clone is a byte-for-byte duplicate with independent storage and a
shallow one shares the original backing storage (the model has no views, so
sharing is returning the original reference). -/
def cloneBuffer (orig : Value) (bytes : List Nat) (isDeep : Bool) (h : Heap) :
    Value × Heap :=
  if isDeep then (Value.ref h.length, h ++ [Node.bufferN bytes])
  else (orig, h)

/-- Modelled from the spec: `cloneRegExp.js` is not under `src/`. Per the spec,
a pattern object is reconstructed from its source text and flags, and the
lastIndex cursor is copied only when `isDeep` is set, else left at its
default (0). Note the `src/` call site (line 130) passes no `isDeep`. -/
def cloneRegExp (source flags : String) (lastIndex : Int) (isDeep : Bool)
    (h : Heap) : Value × Heap :=
  (Value.ref h.length,
   h ++ [Node.regexpN source flags (if isDeep then lastIndex else 0)])

/-- `initCloneArray` (lines 147-161): a new array of the same length
(holes modelled as `undefined`; the RegExp#exec metadata copy has no bearing
on the claims and is not modelled). -/
def initCloneArray (elems : List Value) (h : Heap) : Nat × Heap :=
  (h.length, h ++ [Node.arrayN (List.replicate elems.length (Value.prim Prim.undef))])

/-- `initCloneObject`: an empty structure (prototype identity is not modelled,
so the `isFlat || isFunc` variant coincides with it). -/
def initCloneObject (h : Heap) : Nat × Heap :=
  (h.length, h ++ [Node.plainN []])

/-- `initCloneByTag` (lines 98-138) restricted to the modelled cloneable tags:
an empty Map, an empty Set, or a reconstructed RegExp. The JS call site
`cloneRegExp(object)` forwards no `isDeep`, which the model mirrors by
passing `false`. -/
def initCloneByTag (nd : Node) (h : Heap) : Nat × Heap :=
  match nd with
  | Node.mapN _ => (h.length, h ++ [Node.mapN []])
  | Node.setN _ => (h.length, h ++ [Node.setN []])
  | Node.regexpN s f li =>
      match cloneRegExp s f li false h with
      | (_, h') => (h.length, h')
  | _ => (h.length, h ++ [Node.plainN []])

/-- How a cloned child is written into the shell. -/
inductive ChildMode where
  | assignMode
  | mapMode
  | setMode
  deriving DecidableEq, Repr

/-- `assignValue(result, key, subclone)`: property write for structures,
index write for arrays. -/
def assignValue (h : Heap) (dst : Nat) (key v : Value) : Heap :=
  match heapGet h dst with
  | some (Node.plainN props) =>
      match key with
      | Value.prim (Prim.string k) => heapSet h dst (Node.plainN (propSet props k v))
      | _ => h
  | some (Node.arrayN elems) =>
      match key with
      | Value.prim (Prim.number i) => heapSet h dst (Node.arrayN (elems.set i.toNat v))
      | _ => h
  | _ => h

/-- Writing one cloned child into the shell at `dst`, per traversal mode:
`result.set(key, c)` for Maps, `result.add(c)` for Sets, `assignValue` else. -/
def childWrite (h : Heap) (dst : Nat) (mode : ChildMode) (key v : Value) : Heap :=
  match mode with
  | ChildMode.assignMode => assignValue h dst key v
  | ChildMode.mapMode =>
      match heapGet h dst with
      | some (Node.mapN es) => heapSet h dst (Node.mapN (es ++ [(key, v)]))
      | _ => h
  | ChildMode.setMode =>
      match heapGet h dst with
      | some (Node.setN es) => heapSet h dst (Node.setN (setAdd es v))
      | _ => h

/-- The child traversal loops (lines 254-301): clone each `(key, subValue)`
pair in order with `parent` as the parent object and the same registry, and
write each result into the shell at `dst`. -/
def clonePairs (recur : Recur) (parent : Value) (dst : Nat) (mode : ChildMode) :
    List (Value × Value) → Registry → Heap → Option (Heap × Registry)
  | [], st, h => some (h, st)
  | (k, v) :: rest, st, h =>
    match recur v (some k) (some parent) st h with
    | none => none
    | some (v', h', st') =>
        clonePairs recur parent dst mode rest st' (childWrite h' dst mode k v')

/-- The `(key, subValue)` pairs the property loop (lines 287-301) visits:
array elements by ascending index, else the `keysFunc` key set with the
corresponding own-property values. -/
def childPairs (isFlat isFull : Bool) (nd : Node) : List (Value × Value) :=
  match nd with
  | Node.arrayN elems =>
      elems.enum.map (fun e => (Value.prim (Prim.number (Int.ofNat e.1)), e.2))
  | _ =>
      (keysFunc isFlat isFull nd).map
        (fun k => (Value.prim (Prim.string k),
                   (propGet (propsOf nd) k).getD (Value.prim Prim.undef)))

/-- Lines 246-302: the cycle check against the registry, the
check-then-insert of `(original, shell)`, and the per-tag child traversal.
`a` is the address of the original, `r` the shell address, `h` already
holds the shell. -/
def cloneTail (recur : Recur) (a : Nat) (nd : Node) (r : Nat)
    (isFlat isFull : Bool) (stack : Registry) (h : Heap) : CloneResult :=
  match stackGet stack a with
  | some stacked => some (stacked, h, stack)
  | none =>
    let stack1 := stackSet stack a (Value.ref r)
    match nd with
    | Node.mapN entries =>
        (match clonePairs recur (Value.ref a) r ChildMode.mapMode entries stack1 h with
         | none => none
         | some (h', st') => some (Value.ref r, h', st'))
    | Node.setN elems =>
        (match clonePairs recur (Value.ref a) r ChildMode.setMode
            (elems.map (fun v => (v, v))) stack1 h with
         | none => none
         | some (h', st') => some (Value.ref r, h', st'))
    | _ =>
        if isTypedArrayN nd then some (Value.ref r, h, stack1)
        else
          (match clonePairs recur (Value.ref a) r ChildMode.assignMode
              (childPairs isFlat isFull nd) stack1 h with
           | none => none
           | some (h', st') => some (Value.ref r, h', st'))

/-- The customizer invocation (lines 190-192): four-argument form when a
parent is present, one-argument form at the root; absent customizer behaves
as the `undefined` sentinel. -/
def custCall (customizer : Option Customizer) (value : Value)
    (key object : Option Value) : Value :=
  match customizer with
  | some f => if object.isSome then f value key object else f value none none
  | none => Value.prim Prim.undef

/-- `baseClone(value, bitmask, customizer, key, object, stack)` (lines
179-303), fuel-indexed. Fuel bounds recursion depth only; `none` means the
bound was hit (shown impossible for sufficient fuel below). -/
def baseClone : Nat → Value → Nat → Option Customizer → Option Value →
    Option Value → Registry → Heap → CloneResult
  | 0, _, _, _, _, _, _, _ => none
  | fuel + 1, value, bitmask, customizer, key, object, stack, h =>
    let isDeep := deepBit bitmask
    let isFlat := flatBit bitmask
    let isFull := fullBit bitmask
    let custResult := custCall customizer value key object
    if custResult ≠ Value.prim Prim.undef then some (custResult, h, stack)
    else
      match value with
      | Value.prim p => some (Value.prim p, h, stack)
      | Value.ref a =>
        match heapGet h a with
        | none => none
        | some nd =>
          let recur : Recur := fun v' k' ob' st' h' =>
            baseClone fuel v' bitmask customizer k' ob' st' h'
          match nd with
          | Node.arrayN elems =>
              (match initCloneArray elems h with
               | (r, h1) =>
                 if !isDeep then
                   some (Value.ref r, heapSet h1 r (Node.arrayN elems), stack)
                 else cloneTail recur a nd r isFlat isFull stack h1)
          | Node.bufferN bytes =>
              (match cloneBuffer (Value.ref a) bytes isDeep h with
               | (v', h') => some (v', h', stack))
          | Node.plainN props =>
              (match initCloneObject h with
               | (r, h1) =>
                 if !isDeep then
                   some (Value.ref r, heapSet h1 r (Node.plainN props), stack)
                 else cloneTail recur a nd r isFlat isFull stack h1)
          | Node.funcN props =>
              (match object with
               | some _ => some (Value.ref a, h, stack)
               | none =>
                 match initCloneObject h with
                 | (r, h1) =>
                   if !isDeep then
                     some (Value.ref r, heapSet h1 r (Node.plainN props), stack)
                   else cloneTail recur a nd r isFlat isFull stack h1)
          | Node.errorN _ =>
              (match object with
               | some _ => some (Value.ref a, h, stack)
               | none => some (Value.ref h.length, h ++ [Node.plainN []], stack))
          | Node.weakMapN =>
              (match object with
               | some _ => some (Value.ref a, h, stack)
               | none => some (Value.ref h.length, h ++ [Node.plainN []], stack))
          | _ =>
              (match initCloneByTag nd h with
               | (r, h1) => cloneTail recur a nd r isFlat isFull stack h1)

/-- `shallowClone(value)`: `Deep` unset, own string keys only, no customizer. -/
def shallowClone (v : Value) (h : Heap) : CloneResult :=
  baseClone (h.length + 1) v 0 none none none [] h

/-- `deepClone(value)`: `Deep` set, own string keys only, no customizer. -/
def deepClone (v : Value) (h : Heap) : CloneResult :=
  baseClone (h.length + 1) v CLONE_DEEP_FLAG none none none [] h

/-- `deepCloneWith(value, customizer)`: `deepClone` plus a customizer hook. -/
def deepCloneWith (v : Value) (cz : Customizer) (h : Heap) : CloneResult :=
  baseClone (h.length + 1) v CLONE_DEEP_FLAG (some cz) none none [] h

/-! ## Invariant predicates

`N` is a fixed address threshold: in every claim instantiation it is the
length of the initial heap, so addresses below `N` are the pre-existing
(original) objects and addresses at or above `N` are clone shells allocated
during the traversal. -/

/-- A value is a primitive or a reference below the threshold. -/
def valueOKb (N : Nat) : Value → Bool
  | Value.prim _ => true
  | Value.ref a => decide (a < N)

/-- Every value contained in the node is below the threshold. -/
def nodeOKb (N : Nat) : Node → Bool
  | Node.plainN ps => ps.all (fun e => valueOKb N e.2)
  | Node.arrayN es => es.all (valueOKb N)
  | Node.funcN ps => ps.all (fun e => valueOKb N e.2)
  | Node.bufferN _ => true
  | Node.mapN es => es.all (fun e => valueOKb N e.1 && valueOKb N e.2)
  | Node.setN es => es.all (valueOKb N)
  | Node.regexpN _ _ _ => true
  | Node.errorN _ => true
  | Node.weakMapN => true

/-- The first `N` heap addresses hold nodes whose references stay below `N`
(a real runtime heap has no dangling references, so this holds of every
initial heap with `N` its length). -/
def HeapClosed (N : Nat) (h : Heap) : Prop :=
  ∀ i, i < N → (heapGet h i).all (nodeOKb N) = true

/-- A well-formed registry entry: an original address below the threshold
mapped to a clone reference at or above it. -/
def entryOKb (N : Nat) (e : Nat × Value) : Bool :=
  decide (e.1 < N) &&
    (match e.2 with
     | Value.ref b => decide (N ≤ b)
     | _ => false)

/-- A well-formed registry: distinct original keys, each entry well formed. -/
def StackOK (N : Nat) (st : Registry) : Prop :=
  (st.map Prod.fst).Nodup ∧ ∀ e ∈ st, entryOKb N e = true

instance (N : Nat) (h : Heap) : Decidable (HeapClosed N h) :=
  decidable_of_iff (∀ i, i < N → (heapGet h i).all (nodeOKb N) = true) Iff.rfl

instance (N : Nat) (st : Registry) : Decidable (StackOK N st) :=
  decidable_of_iff ((st.map Prod.fst).Nodup ∧ ∀ e ∈ st, entryOKb N e = true)
    Iff.rfl

/-- The heap only grows, and pre-existing addresses are untouched. -/
def heapGrows (h h' : Heap) : Prop :=
  h.length ≤ h'.length ∧ ∀ i, i < h.length → heapGet h' i = heapGet h i

/-- The registry only grows, and existing entries are never overwritten. -/
def stackGrows (st st' : Registry) : Prop :=
  st.length ≤ st'.length ∧ ∀ a c, stackGet st a = some c → stackGet st' a = some c

/-- Whether a value whose node is `nd` reaches the registry code at lines
246-251 (given the deep flag, and whether the parent argument is absent):
plain structures, arrays and functions-at-the-root only on the deep path;
Maps, Sets and RegExps on both paths; buffers, opaque tags and functions
under a parent return before it. -/
def reachesStackB (nd : Node) (isDeep obNone : Bool) : Bool :=
  match nd with
  | Node.plainN _ => isDeep
  | Node.arrayN _ => isDeep
  | Node.funcN _ => isDeep && obNone
  | Node.mapN _ => true
  | Node.setN _ => true
  | Node.regexpN _ _ _ => true
  | _ => false

/-- The induction bundle for one `baseClone` call: it succeeds, the heap and
registry grow without disturbing existing entries, the registry stays well
formed, and (without a customizer) a value that reaches the registry code
either resolves a hit to the stored clone with the registry untouched, or
registers its own fresh shell (allocated at the input heap length) before
returning it. -/
def Bundle (N : Nat) (v : Value) (cz : Option Customizer) (dFlag obNone : Bool)
    (st : Registry) (h : Heap) : CloneResult → Prop := fun res =>
  ∃ v' h' st', res = some (v', h', st') ∧ heapGrows h h' ∧ stackGrows st st' ∧
    StackOK N st' ∧
    (cz = none → ∀ a nd, v = Value.ref a → heapGet h a = some nd →
      reachesStackB nd dFlag obNone = true →
      (∀ c, stackGet st a = some c → v' = c ∧ st' = st) ∧
      (stackGet st a = none →
        v' = Value.ref h.length ∧ stackGet st' a = some (Value.ref h.length)))


/-- Hypotheses the recursive child-cloner satisfies inside the fold lemmas:
on well-formed inputs whose registry has at least `M` entries it succeeds,
and the heap and registry grow in a well-formed way. -/
def RecurGrows (N M : Nat) (recur : Recur) : Prop :=
  ∀ v k ob st h, N ≤ h.length → HeapClosed N h → StackOK N st →
    valueOKb N v = true → M ≤ st.length →
    ∃ v' h' st', recur v k ob st h = some (v', h', st') ∧ heapGrows h h' ∧
      stackGrows st st' ∧ StackOK N st'

/-- The strong form: the child-cloner satisfies the whole induction bundle
(it runs with no customizer, under deep flag `dFlag`). -/
def RecurOK (N M : Nat) (dFlag : Bool) (recur : Recur) : Prop :=
  ∀ v k ob st h, N ≤ h.length → HeapClosed N h → StackOK N st →
    valueOKb N v = true → M ≤ st.length →
    Bundle N v none dFlag ob.isNone st h (recur v k ob st h)

/-! ## Basic lemmas about the heap, the registry and property lists -/

theorem heapGet_append_lt (h l : Heap) (i : Nat) (hi : i < h.length) :
    heapGet (h ++ l) i = heapGet h i := by
  simp [heapGet, List.getElem?_append_left hi]

theorem heapGet_append_self (h : Heap) (n : Node) :
    heapGet (h ++ [n]) h.length = some n := by
  simp [heapGet, List.getElem?_concat_length]

theorem heapGet_lt_length {h : Heap} {a : Nat} {n : Node}
    (hg : heapGet h a = some n) : a < h.length := by
  by_contra hc
  rw [heapGet, List.getElem?_eq_none_iff.2 (Nat.le_of_not_lt hc)] at hg
  exact Option.noConfusion hg

theorem heapGet_of_lt {h : Heap} {a : Nat} (ha : a < h.length) :
    ∃ n, heapGet h a = some n := ⟨h[a], by simp [heapGet, List.getElem?_eq_getElem ha]⟩

theorem heapSet_length (h : Heap) (a : Nat) (n : Node) :
    (heapSet h a n).length = h.length := by
  simp [heapSet]

theorem heapGet_set_ne (h : Heap) (a b : Nat) (n : Node) (hne : a ≠ b) :
    heapGet (heapSet h a n) b = heapGet h b := by
  simp [heapSet, heapGet, List.getElem?_set_ne hne]

theorem heapGet_set_self (h : Heap) (a : Nat) (n : Node) (ha : a < h.length) :
    heapGet (heapSet h a n) a = some n := by
  simp [heapSet, heapGet, List.getElem?_set_eq_of_lt n ha]

theorem heapSet_append_length (h : Heap) (n n' : Node) :
    heapSet (h ++ [n]) h.length n' = h ++ [n'] := by
  induction h with
  | nil => rfl
  | cons x xs _ => simp [heapSet, List.set]

theorem stackGet_cons (e : Nat × Value) (st : Registry) (a : Nat) :
    stackGet (e :: st) a = if e.1 = a then some e.2 else stackGet st a := by
  by_cases h : e.1 = a
  · simp [stackGet, List.find?_cons, h]
  · simp [stackGet, List.find?_cons, h]

theorem stackGet_append_of_some {st : Registry} {a : Nat} {c : Value}
    (l : Registry) (hs : stackGet st a = some c) :
    stackGet (st ++ l) a = some c := by
  induction st with
  | nil => simp [stackGet] at hs
  | cons e st ih =>
    rw [stackGet_cons] at hs
    rw [List.cons_append, stackGet_cons]
    by_cases h : e.1 = a
    · simpa [h] using hs
    · rw [if_neg h] at hs ⊢; exact ih hs

theorem stackGet_stackSet_self {st : Registry} {a : Nat} (v : Value)
    (hs : stackGet st a = none) :
    stackGet (stackSet st a v) a = some v := by
  induction st with
  | nil => simp [stackSet, stackGet, List.find?]
  | cons e st ih =>
    rw [stackGet_cons] at hs
    by_cases h : e.1 = a
    · simp [h] at hs
    · rw [if_neg h] at hs
      rw [stackSet, List.cons_append, stackGet_cons, if_neg h]
      exact ih hs

theorem stackGet_some_mem {st : Registry} {a : Nat} {c : Value}
    (hs : stackGet st a = some c) : (a, c) ∈ st := by
  induction st with
  | nil => simp [stackGet] at hs
  | cons e st ih =>
    rw [stackGet_cons] at hs
    by_cases h : e.1 = a
    · rw [if_pos h] at hs
      obtain ⟨x, y⟩ := e
      obtain rfl : x = a := h
      obtain rfl : y = c := by injection hs
      exact List.mem_cons_self _ _
    · rw [if_neg h] at hs
      exact List.mem_cons_of_mem _ (ih hs)

theorem stackGet_none_not_mem {st : Registry} {a : Nat}
    (hs : stackGet st a = none) : a ∉ st.map Prod.fst := by
  induction st with
  | nil => simp
  | cons e st ih =>
    rw [stackGet_cons] at hs
    by_cases h : e.1 = a
    · simp [h] at hs
    · rw [if_neg h] at hs
      simp only [List.map_cons, List.mem_cons]
      rintro (rfl | hm)
      · exact h rfl
      · exact ih hs hm

theorem stackOK_length_le {N : Nat} {st : Registry} (h : StackOK N st) :
    st.length ≤ N := by
  have hsub : st.map Prod.fst ⊆ List.range N := by
    intro x hx
    rcases List.mem_map.1 hx with ⟨e, he, rfl⟩
    have := h.2 e he
    rw [entryOKb, Bool.and_eq_true] at this
    exact List.mem_range.2 (of_decide_eq_true this.1)
  have := (h.1.subperm hsub).length_le
  simpa using this

theorem stackOK_insert {N : Nat} {st : Registry} {a r : Nat}
    (hok : StackOK N st) (hmiss : stackGet st a = none) (ha : a < N)
    (hr : N ≤ r) : StackOK N (stackSet st a (Value.ref r)) := by
  constructor
  · rw [stackSet, List.map_append]
    refine List.Nodup.append hok.1 (by simp) ?_
    intro x hx hy
    simp only [List.map_cons, List.map_nil, List.mem_singleton] at hy
    subst hy
    exact stackGet_none_not_mem hmiss hx
  · intro e he
    rw [stackSet] at he
    rcases List.mem_append.1 he with h1 | h1
    · exact hok.2 e h1
    · simp only [List.mem_singleton] at h1
      subst h1
      simp [entryOKb, ha, hr]

theorem stackGet_some_entryOK {N : Nat} {st : Registry} {a : Nat} {c : Value}
    (hok : StackOK N st) (hs : stackGet st a = some c) :
    ∃ b, c = Value.ref b ∧ N ≤ b := by
  have := hok.2 _ (stackGet_some_mem hs)
  rw [entryOKb, Bool.and_eq_true] at this
  rcases this with ⟨-, h2⟩
  cases c with
  | prim p => simp at h2
  | ref b => exact ⟨b, rfl, of_decide_eq_true h2⟩

theorem heapGrows_refl (h : Heap) : heapGrows h h := ⟨le_refl _, fun _ _ => rfl⟩

theorem heapGrows_trans {h1 h2 h3 : Heap} (a : heapGrows h1 h2)
    (b : heapGrows h2 h3) : heapGrows h1 h3 :=
  ⟨le_trans a.1 b.1, fun i hi => (b.2 i (lt_of_lt_of_le hi a.1)).trans (a.2 i hi)⟩

theorem stackGrows_refl (st : Registry) : stackGrows st st :=
  ⟨le_refl _, fun _ _ hc => hc⟩

theorem stackGrows_trans {s1 s2 s3 : Registry} (a : stackGrows s1 s2)
    (b : stackGrows s2 s3) : stackGrows s1 s3 :=
  ⟨le_trans a.1 b.1, fun x c hc => b.2 x c (a.2 x c hc)⟩

theorem stackGrows_stackSet (st : Registry) (a : Nat) (v : Value) :
    stackGrows st (stackSet st a v) := by
  refine ⟨?_, fun x c hc => stackGet_append_of_some _ hc⟩
  rw [stackSet, List.length_append]
  omega

theorem propGet_cons (e : String × Value) (ps : List (String × Value))
    (k : String) :
    propGet (e :: ps) k = if e.1 = k then some e.2 else propGet ps k := by
  by_cases h : e.1 = k
  · simp [propGet, List.find?_cons, h]
  · simp [propGet, List.find?_cons, h]

theorem propSet_nil (k : String) (v : Value) : propSet [] k v = [(k, v)] := rfl

theorem propSet_cons (k' : String) (v' : Value) (ps : List (String × Value))
    (k : String) (v : Value) :
    propSet ((k', v') :: ps) k v =
      if k' = k then (k, v) :: ps else (k', v') :: propSet ps k v := rfl

theorem propGet_propSet_self (ps : List (String × Value)) (k : String) (v : Value) :
    propGet (propSet ps k v) k = some v := by
  induction ps with
  | nil => rw [propSet_nil, propGet_cons, if_pos rfl]
  | cons e ps ih =>
    obtain ⟨k', v'⟩ := e
    rw [propSet_cons]
    by_cases h : k' = k
    · rw [if_pos h, propGet_cons, if_pos rfl]
    · rw [if_neg h, propGet_cons]
      simp only [if_neg h]
      exact ih

theorem propGet_propSet_ne (ps : List (String × Value)) (k' k : String) (v : Value)
    (hne : k' ≠ k) : propGet (propSet ps k' v) k = propGet ps k := by
  induction ps with
  | nil =>
    rw [propSet_nil, propGet_cons]
    simp [hne]
  | cons e ps ih =>
    obtain ⟨k0, v0⟩ := e
    rw [propSet_cons]
    by_cases h : k0 = k'
    · subst h
      rw [if_pos rfl, propGet_cons, propGet_cons]
      simp only [if_neg hne]
    · rw [if_neg h, propGet_cons, propGet_cons]
      by_cases h2 : k0 = k
      · simp only [if_pos h2]
      · simp only [if_neg h2]
        exact ih

theorem propGet_mem {ps : List (String × Value)} {k : String} {v : Value}
    (hg : propGet ps k = some v) : (k, v) ∈ ps := by
  induction ps with
  | nil => simp [propGet] at hg
  | cons e ps ih =>
    rw [propGet_cons] at hg
    by_cases h : e.1 = k
    · rw [if_pos h] at hg
      obtain ⟨x, y⟩ := e
      obtain rfl : x = k := h
      obtain rfl : y = v := by injection hg
      exact List.mem_cons_self _ _
    · rw [if_neg h] at hg
      exact List.mem_cons_of_mem _ (ih hg)

theorem propGet_of_mem_nodup {ps : List (String × Value)} {k : String} {v : Value}
    (hm : (k, v) ∈ ps) (hnd : (ps.map Prod.fst).Nodup) : propGet ps k = some v := by
  induction ps with
  | nil => simp at hm
  | cons e ps ih =>
    rw [List.map_cons, List.nodup_cons] at hnd
    rcases List.mem_cons.1 hm with h1 | h1
    · subst h1
      simp [propGet_cons]
    · rw [propGet_cons]
      have hk : e.1 ≠ k := by
        rintro rfl
        exact hnd.1 (List.mem_map.2 ⟨(e.1, v), h1, rfl⟩)
      rw [if_neg hk]
      exact ih h1 hnd.2

/-! ## Closedness and shell-write lemmas -/

theorem heapClosed_mono {N : Nat} {h h' : Heap} (hcl : HeapClosed N h)
    (hpre : ∀ i, i < N → heapGet h' i = heapGet h i) : HeapClosed N h' := by
  intro i hi
  rw [hpre i hi]
  exact hcl i hi

theorem heapClosed_node {N : Nat} {h : Heap} {a : Nat} {nd : Node}
    (hcl : HeapClosed N h) (ha : a < N) (hg : heapGet h a = some nd) :
    nodeOKb N nd = true := by
  have := hcl a ha
  rw [hg] at this
  simpa [Option.all] using this

theorem heapClosed_append {N : Nat} {h : Heap} (l : Heap) (hN : N ≤ h.length)
    (hcl : HeapClosed N h) : HeapClosed N (h ++ l) :=
  heapClosed_mono hcl (fun i hi => heapGet_append_lt h l i (lt_of_lt_of_le hi hN))

theorem assignValue_length (h : Heap) (dst : Nat) (key v : Value) :
    (assignValue h dst key v).length = h.length := by
  unfold assignValue
  split <;> (try split) <;> simp [heapSet]

theorem assignValue_get_ne (h : Heap) (dst : Nat) (key v : Value) (i : Nat)
    (hne : i ≠ dst) : heapGet (assignValue h dst key v) i = heapGet h i := by
  unfold assignValue
  split <;> (try split) <;>
    first
    | rfl
    | exact heapGet_set_ne _ _ _ _ (Ne.symm hne)

theorem childWrite_length (h : Heap) (dst : Nat) (mode : ChildMode) (k v : Value) :
    (childWrite h dst mode k v).length = h.length := by
  cases mode with
  | assignMode => exact assignValue_length h dst k v
  | mapMode =>
    simp only [childWrite]
    split <;> simp [heapSet]
  | setMode =>
    simp only [childWrite]
    split <;> simp [heapSet]

theorem childWrite_get_ne (h : Heap) (dst : Nat) (mode : ChildMode) (k v : Value)
    (i : Nat) (hne : i ≠ dst) :
    heapGet (childWrite h dst mode k v) i = heapGet h i := by
  cases mode with
  | assignMode => exact assignValue_get_ne h dst k v i hne
  | mapMode =>
    simp only [childWrite]
    split <;> first | rfl | exact heapGet_set_ne _ _ _ _ (Ne.symm hne)
  | setMode =>
    simp only [childWrite]
    split <;> first | rfl | exact heapGet_set_ne _ _ _ _ (Ne.symm hne)

theorem valueOK_lt {N a : Nat} (hv : valueOKb N (Value.ref a) = true) : a < N := by
  simpa [valueOKb] using hv

theorem valueOK_of_lt {N a : Nat} (h : a < N) : valueOKb N (Value.ref a) = true := by
  simpa [valueOKb]

theorem valueOK_mono {N N' : Nat} {v : Value} (hNN : N ≤ N')
    (hv : valueOKb N v = true) : valueOKb N' v = true := by
  cases v with
  | prim p => rfl
  | ref a => exact valueOK_of_lt (lt_of_lt_of_le (valueOK_lt hv) hNN)

theorem keysFunc_eq_keys (f1 f2 : Bool) (nd : Node) :
    keysFunc f1 f2 nd = keys nd := by
  cases f1 <;> cases f2 <;> rfl

theorem childPairs_valueOK {N : Nat} (f1 f2 : Bool) {nd : Node}
    (hn : nodeOKb N nd = true) :
    ∀ p ∈ childPairs f1 f2 nd, valueOKb N p.2 = true := by
  intro p hp
  cases nd with
  | arrayN es =>
    simp only [childPairs] at hp
    rcases List.mem_map.1 hp with ⟨e, he, rfl⟩
    obtain ⟨i, x⟩ := e
    have hidx : es[i]? = some x := List.mk_mem_enum_iff_getElem?.mp he
    have hx : x ∈ es := List.getElem?_mem hidx
    rw [nodeOKb, List.all_eq_true] at hn
    exact hn x hx
  | plainN ps =>
    simp only [childPairs, keysFunc_eq_keys] at hp
    rcases List.mem_map.1 hp with ⟨k, -, rfl⟩
    rcases hpg : propGet (propsOf (Node.plainN ps)) k with - | v
    · simp [hpg, valueOKb]
    · simp only [hpg, Option.getD_some]
      have hm := propGet_mem hpg
      rw [nodeOKb, List.all_eq_true] at hn
      exact hn (k, v) hm
  | funcN ps =>
    simp only [childPairs, keysFunc_eq_keys] at hp
    rcases List.mem_map.1 hp with ⟨k, -, rfl⟩
    rcases hpg : propGet (propsOf (Node.funcN ps)) k with - | v
    · simp [hpg, valueOKb]
    · simp only [hpg, Option.getD_some]
      have hm := propGet_mem hpg
      rw [nodeOKb, List.all_eq_true] at hn
      exact hn (k, v) hm
  | mapN es =>
    simp only [childPairs, keysFunc_eq_keys, keys] at hp
    simp at hp
  | setN es =>
    simp only [childPairs, keysFunc_eq_keys, keys] at hp
    simp at hp
  | bufferN bs =>
    simp only [childPairs, keysFunc_eq_keys, keys] at hp
    simp at hp
  | regexpN s f li =>
    simp only [childPairs, keysFunc_eq_keys, keys] at hp
    simp at hp
  | errorN m =>
    simp only [childPairs, keysFunc_eq_keys, keys] at hp
    simp at hp
  | weakMapN =>
    simp only [childPairs, keysFunc_eq_keys, keys] at hp
    simp at hp

theorem mapPairs_valueOK {N : Nat} {es : List (Value × Value)}
    (hn : nodeOKb N (Node.mapN es) = true) :
    ∀ p ∈ es, valueOKb N p.2 = true := by
  intro p hp
  rw [nodeOKb, List.all_eq_true] at hn
  have := hn p hp
  rw [Bool.and_eq_true] at this
  exact this.2

theorem setPairs_valueOK {N : Nat} {es : List Value}
    (hn : nodeOKb N (Node.setN es) = true) :
    ∀ p ∈ es.map (fun v => (v, v)), valueOKb N p.2 = true := by
  intro p hp
  rcases List.mem_map.1 hp with ⟨v, hv, rfl⟩
  rw [nodeOKb, List.all_eq_true] at hn
  exact hn v hv

theorem stackSet_length (st : Registry) (a : Nat) (v : Value) :
    (stackSet st a v).length = st.length + 1 := by
  simp [stackSet]

theorem recurOK_grows {N M : Nat} {dFlag : Bool} {recur : Recur}
    (H : RecurOK N M dFlag recur) : RecurGrows N M recur := by
  intro v k ob st h hN hcl hst hv hM
  obtain ⟨v', h', st', heq, hg, hs, hok, -⟩ := H v k ob st h hN hcl hst hv hM
  exact ⟨v', h', st', heq, hg, hs, hok⟩

/-- The child-traversal fold preserves the state invariants: it succeeds, the
heap grows while only the shell address is rewritten among existing addresses,
and the registry grows in a well-formed way. -/
theorem clonePairs_bundle {N M : Nat} {recur : Recur}
    (Hrec : RecurGrows N M recur) :
    ∀ (pairs : List (Value × Value)) (parent : Value) (dst : Nat)
      (mode : ChildMode) (st : Registry) (h : Heap),
      N ≤ h.length → HeapClosed N h → StackOK N st → M ≤ st.length →
      dst < h.length → N ≤ dst →
      (∀ p ∈ pairs, valueOKb N p.2 = true) →
      ∃ h' st', clonePairs recur parent dst mode pairs st h = some (h', st') ∧
        h.length ≤ h'.length ∧
        (∀ i, i < h.length → i ≠ dst → heapGet h' i = heapGet h i) ∧
        stackGrows st st' ∧ StackOK N st' ∧ HeapClosed N h' := by
  intro pairs
  induction pairs with
  | nil =>
    intro parent dst mode st h hN hcl hst hM hdst hNdst _
    exact ⟨h, st, rfl, le_refl _, fun _ _ _ => rfl, stackGrows_refl st, hst, hcl⟩
  | cons p rest ih =>
    intro parent dst mode st h hN hcl hst hM hdst hNdst hv
    obtain ⟨k, v⟩ := p
    obtain ⟨v1, h1, st1, hrec, hg1, hs1, hok1⟩ :=
      Hrec v (some k) (some parent) st h hN hcl hst
        (hv (k, v) (List.mem_cons_self _ _)) hM
    have hcl1 : HeapClosed N h1 :=
      heapClosed_mono hcl (fun i hi => hg1.2 i (lt_of_lt_of_le hi hN))
    have hlen2 : (childWrite h1 dst mode k v1).length = h1.length :=
      childWrite_length h1 dst mode k v1
    have hget2 : ∀ i, i ≠ dst →
        heapGet (childWrite h1 dst mode k v1) i = heapGet h1 i :=
      fun i hi => childWrite_get_ne h1 dst mode k v1 i hi
    have hcl2 : HeapClosed N (childWrite h1 dst mode k v1) :=
      heapClosed_mono hcl1
        (fun i hi => hget2 i (Nat.ne_of_lt (lt_of_lt_of_le hi hNdst)))
    obtain ⟨h', st', hfold, hlen', hget', hsg', hok', hcl'⟩ :=
      ih parent dst mode st1 (childWrite h1 dst mode k v1)
        (by rw [hlen2]; exact le_trans hN hg1.1)
        hcl2 hok1 (le_trans hM hs1.1)
        (by rw [hlen2]; exact lt_of_lt_of_le hdst hg1.1)
        hNdst
        (fun q hq => hv q (List.mem_cons_of_mem _ hq))
    refine ⟨h', st', ?_, ?_, ?_, stackGrows_trans hs1 hsg', hok', hcl'⟩
    · simp only [clonePairs, hrec]
      exact hfold
    · calc h.length ≤ h1.length := hg1.1
        _ = (childWrite h1 dst mode k v1).length := hlen2.symm
        _ ≤ h'.length := hlen'
    · intro i hi hne
      rw [hget' i (by rw [hlen2]; exact lt_of_lt_of_le hi hg1.1) hne,
        hget2 i hne, hg1.2 i hi]

/-- Entering the registry code on a miss: the `(original, shell)` pair is
registered first, then the child fold runs; the registration survives to the
end of the fold unchanged. -/
theorem cloneTail_fold_core {N M : Nat} {recur : Recur}
    (Hrec : RecurGrows N M recur)
    (a : Nat) (pairs : List (Value × Value)) (r : Nat) (mode : ChildMode)
    (st : Registry) (h : Heap)
    (hN : N ≤ h.length) (hcl : HeapClosed N h) (hst : StackOK N st)
    (hmiss : stackGet st a = none) (ha : a < N) (hNr : N ≤ r)
    (hr : r < h.length) (hM : M ≤ st.length + 1)
    (hv : ∀ p ∈ pairs, valueOKb N p.2 = true) :
    ∃ h' st',
      clonePairs recur (Value.ref a) r mode pairs (stackSet st a (Value.ref r)) h
        = some (h', st') ∧
      h.length ≤ h'.length ∧
      (∀ i, i < h.length → i ≠ r → heapGet h' i = heapGet h i) ∧
      stackGrows st st' ∧ StackOK N st' ∧ HeapClosed N h' ∧
      stackGet st' a = some (Value.ref r) := by
  have hok1 : StackOK N (stackSet st a (Value.ref r)) := stackOK_insert hst hmiss ha hNr
  have hs01 : stackGrows st (stackSet st a (Value.ref r)) := stackGrows_stackSet st a _
  have hM1 : M ≤ (stackSet st a (Value.ref r)).length := by
    rw [stackSet_length]; exact hM
  obtain ⟨h', st', hfold, hlen, hget, hsg, hok, hcl'⟩ :=
    clonePairs_bundle Hrec pairs (Value.ref a) r mode (stackSet st a (Value.ref r)) h
      hN hcl hok1 hM1 hr hNr hv
  refine ⟨h', st', hfold, hlen, hget, stackGrows_trans hs01 hsg, hok, hcl', ?_⟩
  exact hsg.2 a _ (stackGet_stackSet_self _ hmiss)

/-- The registry code (lines 246-302), bundled: on a hit the stored clone is
returned with the state untouched; on a miss the shell is registered before
the children are traversed, and the shell reference is returned. -/
theorem cloneTail_bundle {N M : Nat} {recur : Recur}
    (Hrec : RecurGrows N M recur)
    (a : Nat) (nd : Node) (r : Nat) (f1 f2 : Bool) (st : Registry) (h : Heap)
    (hN : N ≤ h.length) (hcl : HeapClosed N h) (hst : StackOK N st)
    (hnd : nodeOKb N nd = true) (ha : a < N) (hNr : N ≤ r)
    (hr : r < h.length) (hM : M ≤ st.length + 1) :
    ∃ v' h' st', cloneTail recur a nd r f1 f2 st h = some (v', h', st') ∧
      h.length ≤ h'.length ∧
      (∀ i, i < h.length → i ≠ r → heapGet h' i = heapGet h i) ∧
      stackGrows st st' ∧ StackOK N st' ∧ HeapClosed N h' ∧
      (∀ c, stackGet st a = some c → v' = c ∧ st' = st ∧ h' = h) ∧
      (stackGet st a = none →
        v' = Value.ref r ∧ stackGet st' a = some (Value.ref r)) := by
  cases hhit : stackGet st a with
  | some c =>
    refine ⟨c, h, st, ?_, le_refl _, fun _ _ _ => rfl, stackGrows_refl st, hst,
      hcl, ?_, ?_⟩
    · simp only [cloneTail, hhit]
    · intro c' hc'
      obtain rfl : c = c' := by injection hc'
      exact ⟨rfl, rfl, rfl⟩
    · intro hnone
      cases hnone
  | none =>
    cases nd
    case mapN es =>
      obtain ⟨h', st', hfold, hlen, hget, hsg, hok, hcl', hreg⟩ :=
        cloneTail_fold_core Hrec a es r ChildMode.mapMode st h
          hN hcl hst hhit ha hNr hr hM (mapPairs_valueOK hnd)
      refine ⟨Value.ref r, h', st',
        by simp only [cloneTail, hhit, hfold], hlen, hget, hsg, hok, hcl', ?_,
        fun _ => ⟨rfl, hreg⟩⟩
      intro c hc
      cases hc
    case setN es =>
      obtain ⟨h', st', hfold, hlen, hget, hsg, hok, hcl', hreg⟩ :=
        cloneTail_fold_core Hrec a (es.map (fun v => (v, v))) r ChildMode.setMode
          st h hN hcl hst hhit ha hNr hr hM (setPairs_valueOK hnd)
      refine ⟨Value.ref r, h', st',
        by simp only [cloneTail, hhit, hfold], hlen, hget, hsg, hok, hcl', ?_,
        fun _ => ⟨rfl, hreg⟩⟩
      intro c hc
      cases hc
    case bufferN bs =>
      refine ⟨Value.ref r, h, stackSet st a (Value.ref r),
        by simp [cloneTail, hhit, isTypedArrayN], le_refl _,
        fun _ _ _ => rfl, stackGrows_stackSet st a _,
        stackOK_insert hst hhit ha hNr, hcl, ?_,
        fun _ => ⟨rfl, stackGet_stackSet_self _ hhit⟩⟩
      intro c hc
      cases hc
    all_goals
      obtain ⟨h', st', hfold, hlen, hget, hsg, hok, hcl', hreg⟩ :=
        cloneTail_fold_core Hrec a (childPairs f1 f2 _) r ChildMode.assignMode
          st h hN hcl hst hhit ha hNr hr hM (childPairs_valueOK f1 f2 hnd)
    all_goals
      refine ⟨Value.ref r, h', st',
        by simp only [cloneTail, hhit, isTypedArrayN]
           simp only [Bool.false_eq_true, if_false, hfold],
        hlen, hget, hsg, hok, hcl', ?_, fun _ => ⟨rfl, hreg⟩⟩
    all_goals
      intro c hc
      cases hc

/-- The central invariant theorem for `baseClone`: with fuel at least `N + 1`
minus the registry size, the call succeeds and satisfies the bundle
(termination, monotone well-formed state growth, and the registry hit/miss
behaviour for values that reach the registry code). -/
theorem baseClone_bundle (N bm : Nat) (cz : Option Customizer) :
    ∀ (fuel : Nat) (v : Value) (k ob : Option Value) (st : Registry) (h : Heap),
      N ≤ h.length → HeapClosed N h → StackOK N st → valueOKb N v = true →
      N + 1 ≤ fuel + st.length →
      Bundle N v cz (deepBit bm) ob.isNone st h (baseClone fuel v bm cz k ob st h) := by
  intro fuel
  induction fuel with
  | zero =>
    intro v k ob st h hN hcl hst hv hfuel
    have := stackOK_length_le hst
    omega
  | succ fuel ih =>
    intro v k ob st h hN hcl hst hv hfuel
    have Hrec : RecurGrows N (st.length + 1)
        (fun v' k' ob' st' h' => baseClone fuel v' bm cz k' ob' st' h') := by
      intro v2 k2 ob2 st2 h2 hN2 hcl2 hst2 hv2 hM2
      obtain ⟨v', h', st', heq, hg, hs, hok, -⟩ :=
        ih v2 k2 ob2 st2 h2 hN2 hcl2 hst2 hv2 (by omega)
      exact ⟨v', h', st', heq, hg, hs, hok⟩
    simp only [baseClone]
    by_cases hcz : custCall cz v k ob = Value.prim Prim.undef
    · rw [if_neg (not_not_intro hcz)]
      cases v with
      | prim p =>
        refine ⟨Value.prim p, h, st, rfl, heapGrows_refl h, stackGrows_refl st,
          hst, ?_⟩
        intro _ a' nd' hva
        exact Value.noConfusion hva
      | ref a =>
        have haN : a < N := valueOK_lt hv
        obtain ⟨nd, hget⟩ := heapGet_of_lt (lt_of_lt_of_le haN hN)
        have hndOK : nodeOKb N nd = true := heapClosed_node hcl haN hget
        simp only [hget]
        cases nd with
        | arrayN elems =>
          simp only [initCloneArray]
          cases hdeep : deepBit bm with
          | false =>
            simp only [hdeep, Bool.not_false, if_true, heapSet_append_length]
            refine ⟨Value.ref h.length, h ++ [Node.arrayN elems], st, rfl,
              ⟨by simp, fun i hi => heapGet_append_lt h _ i hi⟩,
              stackGrows_refl st, hst, ?_⟩
            intro _ a' nd' hva hget' hreach
            injection hva with he
            subst he
            rw [hget] at hget'
            injection hget' with he'
            subst he'
            simp [reachesStackB] at hreach
          | true =>
            simp only [hdeep, Bool.not_true, Bool.false_eq_true, if_false]
            obtain ⟨v', h', st', heq, hlen, hgetp, hsg, hok, hcl', hhitc, hmissc⟩ :=
              cloneTail_bundle Hrec a (Node.arrayN elems) h.length
                (flatBit bm) (fullBit bm) st
                (h ++ [Node.arrayN (List.replicate elems.length (Value.prim Prim.undef))])
                (by simp; omega) (heapClosed_append _ hN hcl) hst hndOK haN hN
                (by simp) (le_refl _)
            refine ⟨v', h', st', heq, ?_, hsg, hok, ?_⟩
            · refine ⟨le_trans (by simp) hlen, fun i hi => ?_⟩
              rw [hgetp i (by simp; omega) (Nat.ne_of_lt hi)]
              exact heapGet_append_lt h _ i hi
            · intro _ a' nd' hva hget' _
              injection hva with he
              subst he
              rw [hget] at hget'
              injection hget' with he'
              subst he'
              exact ⟨fun c hc => ⟨(hhitc c hc).1, (hhitc c hc).2.1⟩, hmissc⟩
        | bufferN bytes =>
          simp only [cloneBuffer]
          cases hdeep : deepBit bm with
          | false =>
            simp only [Bool.false_eq_true, if_false]
            refine ⟨Value.ref a, h, st, rfl, heapGrows_refl h, stackGrows_refl st,
              hst, ?_⟩
            intro _ a' nd' hva hget' hreach
            injection hva with he
            subst he
            rw [hget] at hget'
            injection hget' with he'
            subst he'
            simp [reachesStackB] at hreach
          | true =>
            simp only [if_true]
            refine ⟨Value.ref h.length, h ++ [Node.bufferN bytes], st, rfl,
              ⟨by simp, fun i hi => heapGet_append_lt h _ i hi⟩,
              stackGrows_refl st, hst, ?_⟩
            intro _ a' nd' hva hget' hreach
            injection hva with he
            subst he
            rw [hget] at hget'
            injection hget' with he'
            subst he'
            simp [reachesStackB] at hreach
        | plainN props =>
          simp only [initCloneObject]
          cases hdeep : deepBit bm with
          | false =>
            simp only [hdeep, Bool.not_false, if_true, heapSet_append_length]
            refine ⟨Value.ref h.length, h ++ [Node.plainN props], st, rfl,
              ⟨by simp, fun i hi => heapGet_append_lt h _ i hi⟩,
              stackGrows_refl st, hst, ?_⟩
            intro _ a' nd' hva hget' hreach
            injection hva with he
            subst he
            rw [hget] at hget'
            injection hget' with he'
            subst he'
            simp [reachesStackB] at hreach
          | true =>
            simp only [hdeep, Bool.not_true, Bool.false_eq_true, if_false]
            obtain ⟨v', h', st', heq, hlen, hgetp, hsg, hok, hcl', hhitc, hmissc⟩ :=
              cloneTail_bundle Hrec a (Node.plainN props) h.length
                (flatBit bm) (fullBit bm) st (h ++ [Node.plainN []])
                (by simp; omega) (heapClosed_append _ hN hcl) hst hndOK haN hN
                (by simp) (le_refl _)
            refine ⟨v', h', st', heq, ?_, hsg, hok, ?_⟩
            · refine ⟨le_trans (by simp) hlen, fun i hi => ?_⟩
              rw [hgetp i (by simp; omega) (Nat.ne_of_lt hi)]
              exact heapGet_append_lt h _ i hi
            · intro _ a' nd' hva hget' _
              injection hva with he
              subst he
              rw [hget] at hget'
              injection hget' with he'
              subst he'
              exact ⟨fun c hc => ⟨(hhitc c hc).1, (hhitc c hc).2.1⟩, hmissc⟩
        | funcN props =>
          cases ob with
          | some par =>
            refine ⟨Value.ref a, h, st, rfl, heapGrows_refl h, stackGrows_refl st,
              hst, ?_⟩
            intro _ a' nd' hva hget' hreach
            injection hva with he
            subst he
            rw [hget] at hget'
            injection hget' with he'
            subst he'
            simp [reachesStackB] at hreach
          | none =>
            simp only [initCloneObject]
            cases hdeep : deepBit bm with
            | false =>
              simp only [hdeep, Bool.not_false, if_true, heapSet_append_length]
              refine ⟨Value.ref h.length, h ++ [Node.plainN props], st, rfl,
                ⟨by simp, fun i hi => heapGet_append_lt h _ i hi⟩,
                stackGrows_refl st, hst, ?_⟩
              intro _ a' nd' hva hget' hreach
              injection hva with he
              subst he
              rw [hget] at hget'
              injection hget' with he'
              subst he'
              simp [reachesStackB] at hreach
            | true =>
              simp only [hdeep, Bool.not_true, Bool.false_eq_true, if_false]
              obtain ⟨v', h', st', heq, hlen, hgetp, hsg, hok, hcl', hhitc, hmissc⟩ :=
                cloneTail_bundle Hrec a (Node.funcN props) h.length
                  (flatBit bm) (fullBit bm) st (h ++ [Node.plainN []])
                  (by simp; omega) (heapClosed_append _ hN hcl) hst hndOK haN hN
                  (by simp) (le_refl _)
              refine ⟨v', h', st', heq, ?_, hsg, hok, ?_⟩
              · refine ⟨le_trans (by simp) hlen, fun i hi => ?_⟩
                rw [hgetp i (by simp; omega) (Nat.ne_of_lt hi)]
                exact heapGet_append_lt h _ i hi
              · intro _ a' nd' hva hget' _
                injection hva with he
                subst he
                rw [hget] at hget'
                injection hget' with he'
                subst he'
                exact ⟨fun c hc => ⟨(hhitc c hc).1, (hhitc c hc).2.1⟩, hmissc⟩
        | errorN msg =>
          cases ob with
          | some par =>
            refine ⟨Value.ref a, h, st, rfl, heapGrows_refl h, stackGrows_refl st,
              hst, ?_⟩
            intro _ a' nd' hva hget' hreach
            injection hva with he
            subst he
            rw [hget] at hget'
            injection hget' with he'
            subst he'
            simp [reachesStackB] at hreach
          | none =>
            refine ⟨Value.ref h.length, h ++ [Node.plainN []], st, rfl,
              ⟨by simp, fun i hi => heapGet_append_lt h _ i hi⟩,
              stackGrows_refl st, hst, ?_⟩
            intro _ a' nd' hva hget' hreach
            injection hva with he
            subst he
            rw [hget] at hget'
            injection hget' with he'
            subst he'
            simp [reachesStackB] at hreach
        | weakMapN =>
          cases ob with
          | some par =>
            refine ⟨Value.ref a, h, st, rfl, heapGrows_refl h, stackGrows_refl st,
              hst, ?_⟩
            intro _ a' nd' hva hget' hreach
            injection hva with he
            subst he
            rw [hget] at hget'
            injection hget' with he'
            subst he'
            simp [reachesStackB] at hreach
          | none =>
            refine ⟨Value.ref h.length, h ++ [Node.plainN []], st, rfl,
              ⟨by simp, fun i hi => heapGet_append_lt h _ i hi⟩,
              stackGrows_refl st, hst, ?_⟩
            intro _ a' nd' hva hget' hreach
            injection hva with he
            subst he
            rw [hget] at hget'
            injection hget' with he'
            subst he'
            simp [reachesStackB] at hreach
        | mapN es =>
          simp only [initCloneByTag]
          obtain ⟨v', h', st', heq, hlen, hgetp, hsg, hok, hcl', hhitc, hmissc⟩ :=
            cloneTail_bundle Hrec a (Node.mapN es) h.length
              (flatBit bm) (fullBit bm) st (h ++ [Node.mapN []])
              (by simp; omega) (heapClosed_append _ hN hcl) hst hndOK haN hN
              (by simp) (le_refl _)
          refine ⟨v', h', st', heq, ?_, hsg, hok, ?_⟩
          · refine ⟨le_trans (by simp) hlen, fun i hi => ?_⟩
            rw [hgetp i (by simp; omega) (Nat.ne_of_lt hi)]
            exact heapGet_append_lt h _ i hi
          · intro _ a' nd' hva hget' _
            injection hva with he
            subst he
            rw [hget] at hget'
            injection hget' with he'
            subst he'
            exact ⟨fun c hc => ⟨(hhitc c hc).1, (hhitc c hc).2.1⟩, hmissc⟩
        | setN es =>
          simp only [initCloneByTag]
          obtain ⟨v', h', st', heq, hlen, hgetp, hsg, hok, hcl', hhitc, hmissc⟩ :=
            cloneTail_bundle Hrec a (Node.setN es) h.length
              (flatBit bm) (fullBit bm) st (h ++ [Node.setN []])
              (by simp; omega) (heapClosed_append _ hN hcl) hst hndOK haN hN
              (by simp) (le_refl _)
          refine ⟨v', h', st', heq, ?_, hsg, hok, ?_⟩
          · refine ⟨le_trans (by simp) hlen, fun i hi => ?_⟩
            rw [hgetp i (by simp; omega) (Nat.ne_of_lt hi)]
            exact heapGet_append_lt h _ i hi
          · intro _ a' nd' hva hget' _
            injection hva with he
            subst he
            rw [hget] at hget'
            injection hget' with he'
            subst he'
            exact ⟨fun c hc => ⟨(hhitc c hc).1, (hhitc c hc).2.1⟩, hmissc⟩
        | regexpN s f li =>
          simp only [initCloneByTag, cloneRegExp, Bool.false_eq_true, if_false]
          obtain ⟨v', h', st', heq, hlen, hgetp, hsg, hok, hcl', hhitc, hmissc⟩ :=
            cloneTail_bundle Hrec a (Node.regexpN s f li) h.length
              (flatBit bm) (fullBit bm) st (h ++ [Node.regexpN s f 0])
              (by simp; omega) (heapClosed_append _ hN hcl) hst hndOK haN hN
              (by simp) (le_refl _)
          refine ⟨v', h', st', heq, ?_, hsg, hok, ?_⟩
          · refine ⟨le_trans (by simp) hlen, fun i hi => ?_⟩
            rw [hgetp i (by simp; omega) (Nat.ne_of_lt hi)]
            exact heapGet_append_lt h _ i hi
          · intro _ a' nd' hva hget' _
            injection hva with he
            subst he
            rw [hget] at hget'
            injection hget' with he'
            subst he'
            exact ⟨fun c hc => ⟨(hhitc c hc).1, (hhitc c hc).2.1⟩, hmissc⟩
    · rw [if_pos hcz]
      refine ⟨custCall cz v k ob, h, st, rfl, heapGrows_refl h,
        stackGrows_refl st, hst, ?_⟩
      intro hcn
      subst hcn
      exact absurd rfl hcz

/-- `assignValue` on a plain-structure shell: a string key rewrites that
property, any other key is a no-op. -/
theorem assignValue_plain (h : Heap) (dst : Nat) (ps0 : List (String × Value))
    (k v : Value) (hd : heapGet h dst = some (Node.plainN ps0)) :
    (∃ s, k = Value.prim (Prim.string s) ∧
      assignValue h dst k v = heapSet h dst (Node.plainN (propSet ps0 s v))) ∨
    (assignValue h dst k v = h ∧ ∀ s, k ≠ Value.prim (Prim.string s)) := by
  cases k with
  | prim pk =>
    cases pk with
    | string s => exact Or.inl ⟨s, rfl, by simp [assignValue, hd]⟩
    | undef => exact Or.inr ⟨by simp [assignValue, hd], by intro s hc; cases hc⟩
    | null => exact Or.inr ⟨by simp [assignValue, hd], by intro s hc; cases hc⟩
    | boolean b => exact Or.inr ⟨by simp [assignValue, hd], by intro s hc; cases hc⟩
    | number n => exact Or.inr ⟨by simp [assignValue, hd], by intro s hc; cases hc⟩
  | ref b => exact Or.inr ⟨by simp [assignValue, hd], by intro s hc; cases hc⟩

/-- Master lemma for the property-assignment fold over a plain-structure
shell: the fold succeeds, the shell stays a plain structure, and any
already-present property whose key is hit by none of the pairs survives
unchanged. -/
theorem clonePairs_assign {N M : Nat} {recur : Recur}
    (Hrec : RecurGrows N M recur) :
    ∀ (pairs : List (Value × Value)) (parent : Value) (dst : Nat)
      (st : Registry) (h : Heap) (ps0 : List (String × Value)),
      N ≤ h.length → HeapClosed N h → StackOK N st → M ≤ st.length →
      dst < h.length → N ≤ dst →
      (∀ p ∈ pairs, valueOKb N p.2 = true) →
      heapGet h dst = some (Node.plainN ps0) →
      ∃ h' st' ps',
        clonePairs recur parent dst ChildMode.assignMode pairs st h
          = some (h', st') ∧
        h.length ≤ h'.length ∧
        (∀ i, i < h.length → i ≠ dst → heapGet h' i = heapGet h i) ∧
        stackGrows st st' ∧ StackOK N st' ∧ HeapClosed N h' ∧
        heapGet h' dst = some (Node.plainN ps') ∧
        (∀ k0 c, propGet ps0 k0 = some c →
          (∀ q ∈ pairs, q.1 ≠ Value.prim (Prim.string k0)) →
          propGet ps' k0 = some c) := by
  intro pairs
  induction pairs with
  | nil =>
    intro parent dst st h ps0 hN hcl hst hM hdst hNdst _ hd
    exact ⟨h, st, ps0, rfl, le_refl _, fun _ _ _ => rfl, stackGrows_refl st,
      hst, hcl, hd, fun _ _ hc _ => hc⟩
  | cons p rest ih =>
    intro parent dst st h ps0 hN hcl hst hM hdst hNdst hv hd
    obtain ⟨k, v⟩ := p
    obtain ⟨v1, h1, st1, hrec, hg1, hs1, hok1⟩ :=
      Hrec v (some k) (some parent) st h hN hcl hst
        (hv (k, v) (List.mem_cons_self _ _)) hM
    have hcl1 : HeapClosed N h1 :=
      heapClosed_mono hcl (fun i hi => hg1.2 i (lt_of_lt_of_le hi hN))
    have hdst1 : heapGet h1 dst = some (Node.plainN ps0) := by
      rw [hg1.2 dst hdst]; exact hd
    have hdstlt1 : dst < h1.length := lt_of_lt_of_le hdst hg1.1
    rcases assignValue_plain h1 dst ps0 k v1 hdst1 with
      ⟨s, rfl, heqA⟩ | ⟨heqA, hnotstr⟩
    · -- string key: the property is (re)written
      have hd2 : heapGet (assignValue h1 dst (Value.prim (Prim.string s)) v1) dst
          = some (Node.plainN (propSet ps0 s v1)) := by
        rw [heqA]; exact heapGet_set_self h1 dst _ hdstlt1
      have hlen2 : (assignValue h1 dst (Value.prim (Prim.string s)) v1).length
          = h1.length := assignValue_length h1 dst _ v1
      have hget2 : ∀ i, i ≠ dst →
          heapGet (assignValue h1 dst (Value.prim (Prim.string s)) v1) i
            = heapGet h1 i :=
        fun i hi => assignValue_get_ne h1 dst _ v1 i hi
      have hcl2 : HeapClosed N (assignValue h1 dst (Value.prim (Prim.string s)) v1) :=
        heapClosed_mono hcl1
          (fun i hi => hget2 i (Nat.ne_of_lt (lt_of_lt_of_le hi hNdst)))
      obtain ⟨h', st', ps', hfold, hlen', hget', hsg', hok', hcl', hd', hpres⟩ :=
        ih parent dst st1 (assignValue h1 dst (Value.prim (Prim.string s)) v1)
          (propSet ps0 s v1)
          (by rw [hlen2]; exact le_trans hN hg1.1) hcl2 hok1
          (le_trans hM hs1.1)
          (by rw [hlen2]; exact hdstlt1) hNdst
          (fun q hq => hv q (List.mem_cons_of_mem _ hq)) hd2
      refine ⟨h', st', ps', ?_, ?_, ?_, stackGrows_trans hs1 hsg', hok', hcl',
        hd', ?_⟩
      · simp only [clonePairs, hrec, childWrite]
        exact hfold
      · calc h.length ≤ h1.length := hg1.1
          _ = _ := hlen2.symm
          _ ≤ h'.length := hlen'
      · intro i hi hne
        rw [hget' i (by rw [hlen2]; exact lt_of_lt_of_le hi hg1.1) hne,
          hget2 i hne, hg1.2 i hi]
      · intro k0 c hc hkeys
        have hks : s ≠ k0 := by
          intro he
          exact hkeys (Value.prim (Prim.string s), v) (List.mem_cons_self _ _)
            (by rw [he])
        refine hpres k0 c ?_ (fun q hq => hkeys q (List.mem_cons_of_mem _ hq))
        rw [propGet_propSet_ne ps0 s k0 v1 hks]
        exact hc
    · -- non-string key: `assignValue` is a no-op
      obtain ⟨h', st', ps', hfold, hlen', hget', hsg', hok', hcl', hd', hpres⟩ :=
        ih parent dst st1 h1 ps0 (le_trans hN hg1.1) hcl1 hok1
          (le_trans hM hs1.1) hdstlt1 hNdst
          (fun q hq => hv q (List.mem_cons_of_mem _ hq)) hdst1
      refine ⟨h', st', ps', ?_, le_trans hg1.1 hlen', ?_,
        stackGrows_trans hs1 hsg', hok', hcl', hd', ?_⟩
      · simp only [clonePairs, hrec, childWrite, heqA]
        exact hfold
      · intro i hi hne
        rw [hget' i (lt_of_lt_of_le hi hg1.1) hne, hg1.2 i hi]
      · intro k0 c hc hkeys
        exact hpres k0 c hc (fun q hq => hkeys q (List.mem_cons_of_mem _ hq))

/-- Running the child fold over an appended list splits into two runs. -/
theorem clonePairs_append (recur : Recur) (parent : Value) (dst : Nat)
    (mode : ChildMode) :
    ∀ (l1 l2 : List (Value × Value)) (st : Registry) (h : Heap),
      clonePairs recur parent dst mode (l1 ++ l2) st h =
        match clonePairs recur parent dst mode l1 st h with
        | none => none
        | some (h', st') => clonePairs recur parent dst mode l2 st' h' := by
  intro l1
  induction l1 with
  | nil => intro l2 st h; simp [clonePairs]
  | cons p rest ih =>
    intro l2 st h
    obtain ⟨k, v⟩ := p
    simp only [List.cons_append, clonePairs]
    cases hr : recur v (some k) (some parent) st h with
    | none => rfl
    | some r =>
      obtain ⟨v', h', st'⟩ := r
      exact ih l2 st' (childWrite h' dst mode k v')

/-- Master lemma for the Map-entry fold: each entry appends the original key
paired with the cloned value, in order. -/
theorem clonePairs_map {N M : Nat} {recur : Recur}
    (Hrec : RecurGrows N M recur) :
    ∀ (pairs : List (Value × Value)) (parent : Value) (dst : Nat)
      (st : Registry) (h : Heap) (es0 : List (Value × Value)),
      N ≤ h.length → HeapClosed N h → StackOK N st → M ≤ st.length →
      dst < h.length → N ≤ dst →
      (∀ p ∈ pairs, valueOKb N p.2 = true) →
      heapGet h dst = some (Node.mapN es0) →
      ∃ h' st' vs,
        clonePairs recur parent dst ChildMode.mapMode pairs st h
          = some (h', st') ∧
        h.length ≤ h'.length ∧
        (∀ i, i < h.length → i ≠ dst → heapGet h' i = heapGet h i) ∧
        stackGrows st st' ∧ StackOK N st' ∧ HeapClosed N h' ∧
        vs.length = pairs.length ∧
        heapGet h' dst = some (Node.mapN (es0 ++ (pairs.map Prod.fst).zip vs)) := by
  intro pairs
  induction pairs with
  | nil =>
    intro parent dst st h es0 hN hcl hst hM hdst hNdst _ hd
    exact ⟨h, st, [], rfl, le_refl _, fun _ _ _ => rfl, stackGrows_refl st,
      hst, hcl, rfl, by simpa using hd⟩
  | cons p rest ih =>
    intro parent dst st h es0 hN hcl hst hM hdst hNdst hv hd
    obtain ⟨k, v⟩ := p
    obtain ⟨v1, h1, st1, hrec, hg1, hs1, hok1⟩ :=
      Hrec v (some k) (some parent) st h hN hcl hst
        (hv (k, v) (List.mem_cons_self _ _)) hM
    have hcl1 : HeapClosed N h1 :=
      heapClosed_mono hcl (fun i hi => hg1.2 i (lt_of_lt_of_le hi hN))
    have hdst1 : heapGet h1 dst = some (Node.mapN es0) := by
      rw [hg1.2 dst hdst]; exact hd
    have hdstlt1 : dst < h1.length := lt_of_lt_of_le hdst hg1.1
    have hw : childWrite h1 dst ChildMode.mapMode k v1
        = heapSet h1 dst (Node.mapN (es0 ++ [(k, v1)])) := by
      simp [childWrite, hdst1]
    have hd2 : heapGet (heapSet h1 dst (Node.mapN (es0 ++ [(k, v1)]))) dst
        = some (Node.mapN (es0 ++ [(k, v1)])) :=
      heapGet_set_self h1 dst _ hdstlt1
    obtain ⟨h', st', vs, hfold, hlen', hget', hsg', hok', hcl', hvslen, hd'⟩ :=
      ih parent dst st1 (heapSet h1 dst (Node.mapN (es0 ++ [(k, v1)])))
        (es0 ++ [(k, v1)])
        (by rw [heapSet_length]; exact le_trans hN hg1.1)
        (heapClosed_mono hcl1 (fun i hi =>
          heapGet_set_ne h1 dst i _ (Nat.ne_of_gt (lt_of_lt_of_le hi hNdst))))
        hok1 (le_trans hM hs1.1)
        (by rw [heapSet_length]; exact hdstlt1) hNdst
        (fun q hq => hv q (List.mem_cons_of_mem _ hq)) hd2
    refine ⟨h', st', v1 :: vs, ?_, ?_, ?_, stackGrows_trans hs1 hsg', hok',
      hcl', by simp [hvslen], ?_⟩
    · simp only [clonePairs, hrec, hw]
      exact hfold
    · calc h.length ≤ h1.length := hg1.1
        _ = (heapSet h1 dst (Node.mapN (es0 ++ [(k, v1)]))).length :=
          (heapSet_length h1 dst _).symm
        _ ≤ h'.length := hlen'
    · intro i hi hne
      rw [hget' i (by rw [heapSet_length]; exact lt_of_lt_of_le hi hg1.1) hne,
        heapGet_set_ne h1 dst i _ (Ne.symm hne), hg1.2 i hi]
    · rw [hd']
      simp [List.zip_cons_cons]

/-- Packaging `baseClone_bundle` as a `RecurGrows` instance for the fold
lemmas. -/
theorem baseClone_recurGrows (N bm : Nat) (cz : Option Customizer)
    (fuel M : Nat) (hfM : N + 1 ≤ fuel + M) :
    RecurGrows N M (fun v k ob st h => baseClone fuel v bm cz k ob st h) := by
  intro v k ob st h hN hcl hst hv hMle
  obtain ⟨v', h', st', heq, hg, hs, hok, -⟩ :=
    baseClone_bundle N bm cz fuel v k ob st h hN hcl hst hv (by omega)
  exact ⟨v', h', st', heq, hg, hs, hok⟩

/-- Exact evaluation of the shallow path on a plain structure (lines
229-233): a one-level copy of the property list into a fresh shell, with no
recursion (exactly one allocation) and no registry interaction. -/
theorem baseClone_shallow_plain (fuel a : Nat) (ps : List (String × Value))
    (bm : Nat) (hdeep : deepBit bm = false) (k ob : Option Value)
    (st : Registry) (h : Heap) (hget : heapGet h a = some (Node.plainN ps)) :
    baseClone (fuel + 1) (Value.ref a) bm none k ob st h =
      some (Value.ref h.length, h ++ [Node.plainN ps], st) := by
  simp only [baseClone, custCall]
  rw [if_neg (not_not_intro rfl)]
  simp only [hget, initCloneObject, hdeep, Bool.not_false, if_true,
    heapSet_append_length]

/-- Exact evaluation of the shallow path on an array (lines 208-213):
`copyArray` fills a fresh shell with the original elements by reference. -/
theorem baseClone_shallow_array (fuel a : Nat) (es : List Value)
    (bm : Nat) (hdeep : deepBit bm = false) (k ob : Option Value)
    (st : Registry) (h : Heap) (hget : heapGet h a = some (Node.arrayN es)) :
    baseClone (fuel + 1) (Value.ref a) bm none k ob st h =
      some (Value.ref h.length, h ++ [Node.arrayN es], st) := by
  simp only [baseClone, custCall]
  rw [if_neg (not_not_intro rfl)]
  simp only [hget, initCloneArray, hdeep, Bool.not_false, if_true,
    heapSet_append_length]

/-- Exact evaluation on a buffer with the deep flag (lines 221-223): a fresh
byte-for-byte copy is returned before the registry code runs, so the heap
gains exactly the copy and the registry is returned untouched. -/
theorem baseClone_buffer_deep (fuel a : Nat) (bs : List Nat) (bm : Nat)
    (hdeep : deepBit bm = true) (k ob : Option Value) (st : Registry)
    (h : Heap) (hget : heapGet h a = some (Node.bufferN bs)) :
    baseClone (fuel + 1) (Value.ref a) bm none k ob st h =
      some (Value.ref h.length, h ++ [Node.bufferN bs], st) := by
  simp only [baseClone, custCall]
  rw [if_neg (not_not_intro rfl)]
  simp only [hget, cloneBuffer, hdeep, if_true]

/-- Exact evaluation on an Error or WeakMap value (line 236-237): under a
parent the original reference is returned with the state untouched; at the
top level a fresh empty plain structure is returned, with no registry
interaction in either case. -/
theorem baseClone_noncloneable (fuel a : Nat) (nd : Node) (bm : Nat)
    (hop : (∃ msg, nd = Node.errorN msg) ∨ nd = Node.weakMapN)
    (k : Option Value) (st : Registry) (h : Heap)
    (hget : heapGet h a = some nd) :
    (∀ par, baseClone (fuel + 1) (Value.ref a) bm none k (some par) st h =
      some (Value.ref a, h, st)) ∧
    (baseClone (fuel + 1) (Value.ref a) bm none k none st h =
      some (Value.ref h.length, h ++ [Node.plainN []], st)) := by
  constructor
  · intro par
    simp only [baseClone, custCall]
    rw [if_neg (not_not_intro rfl)]
    rcases hop with ⟨msg, rfl⟩ | rfl <;> simp [hget]
  · simp only [baseClone, custCall]
    rw [if_neg (not_not_intro rfl)]
    rcases hop with ⟨msg, rfl⟩ | rfl <;> simp [hget]

/-- Exact evaluation on a RegExp (initCloneByTag line 129-130 plus the empty
property loop): the clone is rebuilt from source text and flags with the
lastIndex cursor left at its default, for every bitmask, because the call
site passes no `isDeep` to the reconstruction helper. -/
theorem baseClone_regexp (fuel a : Nat) (s f : String) (li : Int) (bm : Nat)
    (k ob : Option Value) (st : Registry) (h : Heap)
    (hget : heapGet h a = some (Node.regexpN s f li))
    (hmiss : stackGet st a = none) :
    baseClone (fuel + 1) (Value.ref a) bm none k ob st h =
      some (Value.ref h.length, h ++ [Node.regexpN s f 0],
        stackSet st a (Value.ref h.length)) := by
  simp only [baseClone, custCall]
  rw [if_neg (not_not_intro rfl)]
  simp only [hget, initCloneByTag, cloneRegExp, Bool.false_eq_true, if_false,
    cloneTail, hmiss, isTypedArrayN, childPairs, keysFunc_eq_keys, keys,
    List.map_nil, clonePairs]

/-- Unfolding the deep path on a plain structure at a registry miss: the
shell is allocated, `(original, shell)` is registered, and only then are the
children folded over with the registry already holding the pair. -/
theorem baseClone_deep_plain_unfold (fuel a : Nat) (ps : List (String × Value))
    (bm : Nat) (hdeep : deepBit bm = true) (k ob : Option Value)
    (st : Registry) (h : Heap) (hget : heapGet h a = some (Node.plainN ps))
    (hmiss : stackGet st a = none) :
    baseClone (fuel + 1) (Value.ref a) bm none k ob st h =
      (match clonePairs
          (fun v' k' ob' st' h' => baseClone fuel v' bm none k' ob' st' h')
          (Value.ref a) h.length ChildMode.assignMode
          (childPairs (flatBit bm) (fullBit bm) (Node.plainN ps))
          (stackSet st a (Value.ref h.length)) (h ++ [Node.plainN []]) with
       | none => none
       | some (h', st') => some (Value.ref h.length, h', st')) := by
  simp only [baseClone, custCall]
  rw [if_neg (not_not_intro rfl)]
  simp only [hget, initCloneObject, hdeep, Bool.not_true, Bool.false_eq_true,
    if_false, cloneTail, hmiss, isTypedArrayN]

/-- Unfolding the Map path at a registry miss (for any bitmask: the registry
code and the entry fold run on the shallow path too): an empty Map shell is
allocated and registered, then every entry value is recursively cloned with
the entry key as `key` and the Map as parent, in order, on the same
registry. -/
theorem baseClone_map_unfold (fuel a : Nat) (es : List (Value × Value))
    (bm : Nat) (k ob : Option Value) (st : Registry) (h : Heap)
    (hget : heapGet h a = some (Node.mapN es))
    (hmiss : stackGet st a = none) :
    baseClone (fuel + 1) (Value.ref a) bm none k ob st h =
      (match clonePairs
          (fun v' k' ob' st' h' => baseClone fuel v' bm none k' ob' st' h')
          (Value.ref a) h.length ChildMode.mapMode es
          (stackSet st a (Value.ref h.length)) (h ++ [Node.mapN []]) with
       | none => none
       | some (h', st') => some (Value.ref h.length, h', st')) := by
  simp only [baseClone, custCall]
  rw [if_neg (not_not_intro rfl)]
  simp only [hget, initCloneByTag, cloneTail, hmiss]

/-- Unfolding the Set path at a registry miss, for any bitmask. -/
theorem baseClone_set_unfold (fuel a : Nat) (es : List Value)
    (bm : Nat) (k ob : Option Value) (st : Registry) (h : Heap)
    (hget : heapGet h a = some (Node.setN es))
    (hmiss : stackGet st a = none) :
    baseClone (fuel + 1) (Value.ref a) bm none k ob st h =
      (match clonePairs
          (fun v' k' ob' st' h' => baseClone fuel v' bm none k' ob' st' h')
          (Value.ref a) h.length ChildMode.setMode (es.map (fun v => (v, v)))
          (stackSet st a (Value.ref h.length)) (h ++ [Node.setN []]) with
       | none => none
       | some (h', st') => some (Value.ref h.length, h', st')) := by
  simp only [baseClone, custCall]
  rw [if_neg (not_not_intro rfl)]
  simp only [hget, initCloneByTag, cloneTail, hmiss]

/-- A registry hit on the deep plain path (lines 247-250): the stored clone
is returned, the registry is unchanged (only the wasted shell allocation
remains on the heap), and the children are not visited. -/
theorem baseClone_deep_plain_hit (fuel a : Nat) (ps : List (String × Value))
    (bm : Nat) (hdeep : deepBit bm = true) (k ob : Option Value)
    (st : Registry) (h : Heap) (c : Value)
    (hget : heapGet h a = some (Node.plainN ps))
    (hhit : stackGet st a = some c) :
    baseClone (fuel + 1) (Value.ref a) bm none k ob st h =
      some (c, h ++ [Node.plainN []], st) := by
  simp only [baseClone, custCall]
  rw [if_neg (not_not_intro rfl)]
  simp only [hget, initCloneObject, hdeep, Bool.not_true, Bool.false_eq_true,
    if_false, cloneTail, hhit]

/-- With duplicate-free keys (as on any real runtime structure), the property
loop pairs are exactly the property list with string keys wrapped as values. -/
theorem childPairs_plain_nodup (f1 f2 : Bool) (props : List (String × Value))
    (hnd : (props.map Prod.fst).Nodup) :
    childPairs f1 f2 (Node.plainN props)
      = props.map (fun e => (Value.prim (Prim.string e.1), e.2)) := by
  simp only [childPairs, keysFunc_eq_keys, keys, propsOf, List.map_map]
  refine List.map_congr_left ?_
  intro e he
  have : propGet props e.1 = some e.2 := by
    refine propGet_of_mem_nodup ?_ hnd
    simpa using he
  simp [Function.comp, this]

theorem plainPairs_valueOK {N : Nat} {props : List (String × Value)}
    (hn : nodeOKb N (Node.plainN props) = true) :
    ∀ q ∈ props.map (fun e => (Value.prim (Prim.string e.1), e.2)),
      valueOKb N q.2 = true := by
  intro q hq
  rcases List.mem_map.1 hq with ⟨e, he, rfl⟩
  rw [nodeOKb, List.all_eq_true] at hn
  exact hn e he

/-- The Set-element fold when every element is a reference to a plain
structure cloned shallowly: each element yields a fresh one-level copy at a
new address, appended in order (no `Set#add` dedup fires because fresh
addresses are distinct from everything already present), and the registry is
returned untouched. -/
theorem clonePairs_set_plain (recur : Recur)
    (Hexact : ∀ a2 ps2 k2 ob2 st2 h2, heapGet h2 a2 = some (Node.plainN ps2) →
      recur (Value.ref a2) k2 ob2 st2 h2
        = some (Value.ref h2.length, h2 ++ [Node.plainN ps2], st2)) :
    ∀ (elems : List Value) (parent : Value) (dst : Nat) (st : Registry)
      (h : Heap) (es0 : List Value),
      dst < h.length →
      (∀ v ∈ elems, ∃ c ps, v = Value.ref c ∧ c < h.length ∧ c ≠ dst ∧
        heapGet h c = some (Node.plainN ps)) →
      heapGet h dst = some (Node.setN es0) →
      (∀ e ∈ es0, ∃ b, e = Value.ref b ∧ b < h.length) →
      ∃ (h' : Heap) (cs : List Nat),
        clonePairs recur parent dst ChildMode.setMode
          (elems.map (fun v => (v, v))) st h = some (h', st) ∧
        h.length ≤ h'.length ∧
        (∀ i, i < h.length → i ≠ dst → heapGet h' i = heapGet h i) ∧
        cs.length = elems.length ∧
        heapGet h' dst = some (Node.setN (es0 ++ cs.map Value.ref)) ∧
        (∀ (i c : Nat) (ps : List (String × Value)),
          elems[i]? = some (Value.ref c) →
          heapGet h c = some (Node.plainN ps) →
          ∃ c', cs[i]? = some c' ∧ h.length ≤ c' ∧
            heapGet h' c' = some (Node.plainN ps)) := by
  intro elems
  induction elems with
  | nil =>
    intro parent dst st h es0 hdst _ hd _
    refine ⟨h, [], rfl, le_refl _, fun _ _ _ => rfl, rfl, by simpa using hd, ?_⟩
    intro i c ps hidx
    simp at hidx
  | cons v rest ih =>
    intro parent dst st h es0 hdst helems hd hes0
    obtain ⟨c, ps, rfl, hcl, hcd, hcget⟩ := helems v (List.mem_cons_self _ _)
    have hchild := Hexact c ps (some (Value.ref c)) (some parent) st h hcget
    -- the written element is fresh, so `setAdd` appends
    have hnotmem : Value.ref h.length ∉ es0 := by
      intro hmem
      obtain ⟨b, heb, hbl⟩ := hes0 _ hmem
      injection heb with he
      omega
    have hdget1 : heapGet (h ++ [Node.plainN ps]) dst = some (Node.setN es0) := by
      rw [heapGet_append_lt h _ dst hdst]; exact hd
    have hw : childWrite (h ++ [Node.plainN ps]) dst ChildMode.setMode
        (Value.ref c) (Value.ref h.length)
        = heapSet (h ++ [Node.plainN ps]) dst
            (Node.setN (es0 ++ [Value.ref h.length])) := by
      simp [childWrite, hdget1, setAdd, hnotmem]
    have hlen2 : (heapSet (h ++ [Node.plainN ps]) dst
        (Node.setN (es0 ++ [Value.ref h.length]))).length = h.length + 1 := by
      simp [heapSet]
    have hdget2 : heapGet (heapSet (h ++ [Node.plainN ps]) dst
        (Node.setN (es0 ++ [Value.ref h.length]))) dst
        = some (Node.setN (es0 ++ [Value.ref h.length])) :=
      heapGet_set_self _ dst _ (by simp; omega)
    have hget2 : ∀ i, i ≠ dst →
        heapGet (heapSet (h ++ [Node.plainN ps]) dst
          (Node.setN (es0 ++ [Value.ref h.length]))) i
          = heapGet (h ++ [Node.plainN ps]) i :=
      fun i hi => heapGet_set_ne _ dst i _ (Ne.symm hi)
    obtain ⟨h', cs, hfold, hlen', hget', hcslen, hd', hidxc⟩ :=
      ih parent dst st (heapSet (h ++ [Node.plainN ps]) dst
          (Node.setN (es0 ++ [Value.ref h.length])))
        (es0 ++ [Value.ref h.length])
        (by omega)
        (by
          intro v2 hv2
          obtain ⟨c2, ps2, rfl, hc2l, hc2d, hc2get⟩ :=
            helems v2 (List.mem_cons_of_mem _ hv2)
          refine ⟨c2, ps2, rfl, by omega, hc2d, ?_⟩
          rw [hget2 c2 hc2d, heapGet_append_lt h _ c2 hc2l]
          exact hc2get)
        hdget2
        (by
          intro e he
          rcases List.mem_append.1 he with h1 | h1
          · obtain ⟨b, rfl, hbl⟩ := hes0 _ h1
            exact ⟨b, rfl, by omega⟩
          · simp only [List.mem_singleton] at h1
            subst h1
            exact ⟨h.length, rfl, by omega⟩)
    refine ⟨h', h.length :: cs, ?_, by omega, ?_, by simp [hcslen], ?_, ?_⟩
    · simp only [List.map_cons, clonePairs, hchild, hw]
      exact hfold
    · intro i hi hne
      rw [hget' i (by omega) hne, hget2 i hne,
        heapGet_append_lt h _ i hi]
    · rw [hd']
      simp
    · intro i c2 ps2 hidx hc2get
      cases i with
      | zero =>
        simp only [List.getElem?_cons_zero] at hidx
        obtain rfl : c = c2 := by injection hidx with he; injection he
        obtain rfl : ps = ps2 := by
          rw [hcget] at hc2get; injection hc2get with he; injection he
        refine ⟨h.length, by simp, le_refl _, ?_⟩
        rw [hget' h.length (by omega) (Nat.ne_of_gt (by omega)),
          hget2 h.length (Nat.ne_of_gt (by omega)),
          heapGet_append_self]
      | succ i =>
        simp only [List.getElem?_cons_succ] at hidx
        obtain ⟨c', hcs, hc'len, hc'get⟩ := hidxc i c2 ps2 hidx
          (by
            obtain ⟨c3, ps3, he3, hc3l, hc3d, -⟩ :=
              helems (Value.ref c2) (List.mem_cons_of_mem _ (List.getElem?_mem hidx))
            obtain rfl : c2 = c3 := by cases he3; rfl
            rw [hget2 c2 hc3d, heapGet_append_lt h _ c2 hc3l]
            exact hc2get)
        refine ⟨c', by simpa using hcs, by omega, hc'get⟩

/-! ## Claim theorems -/

/-- C4, counterexample: the claim says a customizer replacement is returned
verbatim with the replacement Value unrestricted; but `undefined` IS the
sentinel (line 194: `result !== undefined`), so a customizer that replaces a
node with `undefined` is treated as "no opinion" and the engine returns the
default clone (here the primitive itself), not the replacement. -/
theorem customizer_undef_replacement_cex :
    baseClone 5 (Value.prim (Prim.number 3)) CLONE_DEEP_FLAG
        (some (fun _ _ _ => Value.prim Prim.undef)) none none [] []
      = some (Value.prim (Prim.number 3), [], []) ∧
    Value.prim (Prim.number 3) ≠ Value.prim Prim.undef :=
  ⟨rfl, by decide⟩

/-- C4 (amended): for every node including the root, if the customizer
returns a replacement other than the `undefined` sentinel, the engine returns
that replacement verbatim and immediately: the heap is untouched (no shell,
no recursion into children) and the registry is returned exactly as passed
(no registry interaction). A replacement of `undefined` is indistinguishable
from "no opinion". -/
theorem customizer_short_circuit (fuel : Nat) (v : Value) (bm : Nat)
    (f : Customizer) (k ob : Option Value) (st : Registry) (h : Heap)
    (hfuel : 0 < fuel)
    (hrep : custCall (some f) v k ob ≠ Value.prim Prim.undef) :
    baseClone fuel v bm (some f) k ob st h
      = some (custCall (some f) v k ob, h, st) := by
  obtain ⟨g, rfl⟩ : ∃ g, fuel = g + 1 := ⟨fuel - 1, by omega⟩
  simp only [baseClone]
  rw [if_pos hrep]

theorem customizer_short_circuit_witness :
    0 < 3 ∧
    custCall (some (fun _ _ _ => Value.prim Prim.null)) (Value.ref 0) none none
      ≠ Value.prim Prim.undef ∧
    baseClone 3 (Value.ref 0) CLONE_DEEP_FLAG
        (some (fun _ _ _ => Value.prim Prim.null)) none none [] [Node.plainN []]
      = some (custCall (some (fun _ _ _ => Value.prim Prim.null)) (Value.ref 0)
          none none, [Node.plainN []], []) :=
  ⟨by decide, by decide,
    customizer_short_circuit 3 (Value.ref 0) CLONE_DEEP_FLAG
      (fun _ _ _ => Value.prim Prim.null) none none [] [Node.plainN []]
      (by decide) (by decide)⟩

/-- C5: a value whose tag is the error tag or the weak-collection tag (the
two tags `cloneableTags` marks false, line 81): encountered as a child (a
parent is present) the engine returns the very same reference with heap and
registry untouched; as the top-level value it returns a fresh empty plain
structure. Nested scenario: deep-cloning a parent whose property holds such
a value yields a clone whose property is the same reference
(`clone.err === original.err`). -/
theorem noncloneable_fallback (fuel a : Nat) (nd : Node) (bm : Nat)
    (hop : (∃ msg, nd = Node.errorN msg) ∨ nd = Node.weakMapN)
    (k : Option Value) (st : Registry) (h : Heap)
    (hget : heapGet h a = some nd) (hfuel : 0 < fuel) :
    (∀ par, baseClone fuel (Value.ref a) bm none k (some par) st h =
      some (Value.ref a, h, st)) ∧
    (baseClone fuel (Value.ref a) bm none k none st h =
      some (Value.ref h.length, h ++ [Node.plainN []], st)) ∧
    (∀ p kp, heapGet h p = some (Node.plainN [(kp, Value.ref a)]) →
      deepClone (Value.ref p) h =
        some (Value.ref h.length, h ++ [Node.plainN [(kp, Value.ref a)]],
          stackSet [] p (Value.ref h.length))) := by
  obtain ⟨g, rfl⟩ : ∃ g, fuel = g + 1 := ⟨fuel - 1, by omega⟩
  obtain ⟨hchild, htop⟩ := baseClone_noncloneable g a nd bm hop k st h hget
  refine ⟨hchild, htop, ?_⟩
  intro p kp hgetP
  have halt : a < h.length := heapGet_lt_length hget
  obtain ⟨g2, hg2⟩ : ∃ g2, h.length = g2 + 1 := ⟨h.length - 1, by omega⟩
  rw [deepClone, baseClone_deep_plain_unfold h.length p [(kp, Value.ref a)]
    CLONE_DEEP_FLAG rfl none none [] h hgetP rfl]
  rw [childPairs_plain_nodup _ _ [(kp, Value.ref a)] (by simp)]
  have hgetA1 : heapGet (h ++ [Node.plainN []]) a = some nd := by
    rw [heapGet_append_lt h _ a halt]; exact hget
  have hchild2 := (baseClone_noncloneable g2 a nd CLONE_DEEP_FLAG hop
      (some (Value.prim (Prim.string kp)))
      (stackSet [] p (Value.ref h.length)) (h ++ [Node.plainN []]) hgetA1).1
      (Value.ref p)
  rw [← hg2] at hchild2
  have hassign : assignValue (h ++ [Node.plainN []]) h.length
      (Value.prim (Prim.string kp)) (Value.ref a)
      = h ++ [Node.plainN [(kp, Value.ref a)]] := by
    have h1get : heapGet (h ++ [Node.plainN []]) h.length
        = some (Node.plainN []) := heapGet_append_self h _
    simp [assignValue, h1get, heapSet_append_length, propSet]
  simp only [List.map_cons, List.map_nil, clonePairs, hchild2, childWrite,
    hassign]

theorem noncloneable_fallback_witness :
    heapGet [Node.plainN [("err", Value.ref 1)], Node.errorN "boom"] 1
      = some (Node.errorN "boom") ∧
    (0 : Nat) < 1 ∧
    baseClone 1 (Value.ref 1) CLONE_DEEP_FLAG none none (some (Value.ref 0))
        [] [Node.plainN [("err", Value.ref 1)], Node.errorN "boom"]
      = some (Value.ref 1,
          [Node.plainN [("err", Value.ref 1)], Node.errorN "boom"], []) ∧
    deepClone (Value.ref 0)
        [Node.plainN [("err", Value.ref 1)], Node.errorN "boom"]
      = some (Value.ref 2,
          [Node.plainN [("err", Value.ref 1)], Node.errorN "boom",
           Node.plainN [("err", Value.ref 1)]],
          stackSet [] 0 (Value.ref 2)) := by
  refine ⟨by decide, by decide, ?_, ?_⟩
  · exact (noncloneable_fallback 1 1 (Node.errorN "boom") CLONE_DEEP_FLAG
      (Or.inl ⟨"boom", rfl⟩) none []
      [Node.plainN [("err", Value.ref 1)], Node.errorN "boom"]
      (by decide) (by decide)).1 (Value.ref 0)
  · exact (noncloneable_fallback 1 1 (Node.errorN "boom") CLONE_DEEP_FLAG
      (Or.inl ⟨"boom", rfl⟩) none []
      [Node.plainN [("err", Value.ref 1)], Node.errorN "boom"]
      (by decide) (by decide)).2.2 0 "err" (by decide)

/-- C7: the non-Deep path on a plain structure or an array performs a
one-level copy: the result is a single fresh shell holding the original
property list / element list unchanged (so every container-valued child is
the very same reference), the heap gains exactly that one node (no
recursion), and the registry comes back empty (no registry entry). -/
theorem shallow_clone_shares_children (a : Nat) (h : Heap) :
    (∀ ps, heapGet h a = some (Node.plainN ps) →
      shallowClone (Value.ref a) h
        = some (Value.ref h.length, h ++ [Node.plainN ps], ([] : Registry)) ∧
      ∀ (k : String) (c : Nat), propGet ps k = some (Value.ref c) →
        ∃ ps', heapGet (h ++ [Node.plainN ps]) h.length
            = some (Node.plainN ps') ∧
          propGet ps' k = some (Value.ref c)) ∧
    (∀ es, heapGet h a = some (Node.arrayN es) →
      shallowClone (Value.ref a) h
        = some (Value.ref h.length, h ++ [Node.arrayN es], ([] : Registry)) ∧
      ∀ (i c : Nat), es[i]? = some (Value.ref c) →
        ∃ es', heapGet (h ++ [Node.arrayN es]) h.length
            = some (Node.arrayN es') ∧
          es'[i]? = some (Value.ref c)) := by
  constructor
  · intro ps hget
    refine ⟨baseClone_shallow_plain h.length a ps 0 rfl none none [] h hget, ?_⟩
    intro k c hpk
    exact ⟨ps, heapGet_append_self h _, hpk⟩
  · intro es hget
    refine ⟨baseClone_shallow_array h.length a es 0 rfl none none [] h hget, ?_⟩
    intro i c hik
    exact ⟨es, heapGet_append_self h _, hik⟩

/-- C8, counterexample: the claim says that with the Deep flag set the
clone's lastIndex is copied from the original; but `initCloneByTag` invokes
the RegExp reconstruction helper without forwarding `isDeep` (line 130), so
the deep clone's lastIndex is the default 0 while the original holds 5. -/
theorem regexp_lastIndex_cex :
    deepClone (Value.ref 0) [Node.regexpN "ab" "g" 5]
      = some (Value.ref 1,
          [Node.regexpN "ab" "g" 5, Node.regexpN "ab" "g" 0],
          [(0, Value.ref 1)]) ∧
    (0 : Int) ≠ 5 :=
  ⟨rfl, by decide⟩

/-- C8 (amended): a pattern object clone is reconstructed from the original
source text and flags, and the lastIndex cursor is left at its default (0)
regardless of the Deep flag, because the `src/` call site passes no `isDeep`
to the reconstruction helper; deep and shallow behave identically here. -/
theorem regexp_clone_amended (fuel a : Nat) (s f : String) (li : Int)
    (bm : Nat) (k ob : Option Value) (st : Registry) (h : Heap)
    (hfuel : 0 < fuel)
    (hget : heapGet h a = some (Node.regexpN s f li))
    (hmiss : stackGet st a = none) :
    baseClone fuel (Value.ref a) bm none k ob st h
      = some (Value.ref h.length, h ++ [Node.regexpN s f 0],
          stackSet st a (Value.ref h.length)) := by
  obtain ⟨g, rfl⟩ : ∃ g, fuel = g + 1 := ⟨fuel - 1, by omega⟩
  exact baseClone_regexp g a s f li bm k ob st h hget hmiss

theorem regexp_clone_amended_witness :
    0 < 2 ∧
    heapGet [Node.regexpN "x" "i" 7] 0 = some (Node.regexpN "x" "i" 7) ∧
    stackGet [] 0 = none ∧
    baseClone 2 (Value.ref 0) 0 none none none [] [Node.regexpN "x" "i" 7]
      = some (Value.ref 1, [Node.regexpN "x" "i" 7, Node.regexpN "x" "i" 0],
          stackSet [] 0 (Value.ref 1)) :=
  ⟨by decide, by decide, rfl,
    regexp_clone_amended 2 0 "x" "i" 7 0 none none [] [Node.regexpN "x" "i" 7]
      (by decide) (by decide) rfl⟩

/-- C3: per `baseClone` call on the deep path, (i) a registry entry, once
present, is never overwritten (each original is inserted at most once and
kept), (ii) a later encounter of an already-registered original returns the
registered clone with the registry exactly as it was (no further recursion
into it), (iii) a first encounter of a registering value registers the
returned shell, and (iv) on the deep plain path the `(original, shell)` pair
is inserted before the children are folded over (the children run on the
registry already holding the pair). -/
theorem registry_invariants (N bm fuel : Nat) (v : Value) (k ob : Option Value)
    (st : Registry) (h : Heap)
    (hN : N ≤ h.length) (hcl : HeapClosed N h) (hst : StackOK N st)
    (hv : valueOKb N v = true) (hfuel : N + 1 ≤ fuel + st.length) :
    ∃ v' h' st', baseClone fuel v bm none k ob st h = some (v', h', st') ∧
      (∀ (a : Nat) (c : Value), stackGet st a = some c →
        stackGet st' a = some c) ∧
      (∀ (a : Nat) (nd : Node) (c : Value), v = Value.ref a →
        heapGet h a = some nd →
        reachesStackB nd (deepBit bm) ob.isNone = true →
        stackGet st a = some c → v' = c ∧ st' = st) ∧
      (∀ (a : Nat) (nd : Node), v = Value.ref a → heapGet h a = some nd →
        reachesStackB nd (deepBit bm) ob.isNone = true →
        stackGet st a = none →
        v' = Value.ref h.length ∧ stackGet st' a = some (Value.ref h.length)) ∧
      (∀ (g a : Nat) (ps : List (String × Value)), fuel = g + 1 →
        v = Value.ref a → deepBit bm = true →
        heapGet h a = some (Node.plainN ps) → stackGet st a = none →
        baseClone fuel v bm none k ob st h =
          (match clonePairs
              (fun v2 k2 ob2 st2 h2 => baseClone g v2 bm none k2 ob2 st2 h2)
              (Value.ref a) h.length ChildMode.assignMode
              (childPairs (flatBit bm) (fullBit bm) (Node.plainN ps))
              (stackSet st a (Value.ref h.length)) (h ++ [Node.plainN []]) with
           | none => none
           | some (h2, st2) => some (Value.ref h.length, h2, st2))) := by
  obtain ⟨v', h', st', heq, hg, hs, hok, hB⟩ :=
    baseClone_bundle N bm none fuel v k ob st h hN hcl hst hv hfuel
  refine ⟨v', h', st', heq, fun a c hc => hs.2 a c hc, ?_, ?_, ?_⟩
  · intro a nd c hva hget hreach hc
    exact (hB rfl a nd hva hget hreach).1 c hc
  · intro a nd hva hget hreach hmiss
    exact (hB rfl a nd hva hget hreach).2 hmiss
  · intro g a ps hfg hva hdeep hget hmiss
    subst hfg
    subst hva
    exact baseClone_deep_plain_unfold g a ps bm hdeep k ob st h hget hmiss

theorem registry_invariants_witness :
    ∃ v' h' st',
      baseClone 2 (Value.ref 0) 1 none none none [] [Node.plainN []]
        = some (v', h', st') ∧
      (∀ (a : Nat) (c : Value), stackGet [] a = some c →
        stackGet st' a = some c) ∧
      (∀ (a : Nat) (nd : Node) (c : Value), Value.ref 0 = Value.ref a →
        heapGet [Node.plainN []] a = some nd →
        reachesStackB nd (deepBit 1) (Option.isNone (none : Option Value)) = true →
        stackGet [] a = some c → v' = c ∧ st' = []) ∧
      (∀ (a : Nat) (nd : Node), Value.ref 0 = Value.ref a →
        heapGet [Node.plainN []] a = some nd →
        reachesStackB nd (deepBit 1) (Option.isNone (none : Option Value)) = true →
        stackGet [] a = none →
        v' = Value.ref 1 ∧ stackGet st' a = some (Value.ref 1)) ∧
      (∀ (g a : Nat) (ps : List (String × Value)), 2 = g + 1 →
        Value.ref 0 = Value.ref a → deepBit 1 = true →
        heapGet [Node.plainN []] a = some (Node.plainN ps) →
        stackGet [] a = none →
        baseClone 2 (Value.ref 0) 1 none none none [] [Node.plainN []] =
          (match clonePairs
              (fun v2 k2 ob2 st2 h2 => baseClone g v2 1 none k2 ob2 st2 h2)
              (Value.ref a) 1 ChildMode.assignMode
              (childPairs (flatBit 1) (fullBit 1) (Node.plainN ps))
              (stackSet [] a (Value.ref 1)) ([Node.plainN []] ++ [Node.plainN []]) with
           | none => none
           | some (h2, st2) => some (Value.ref 1, h2, st2))) :=
  registry_invariants 1 1 2 (Value.ref 0) none none [] [Node.plainN []]
    (by decide) (by decide) (by decide) (by decide) (by decide)

/-- C6: deep-cloning a Map recursively clones each entry value while keeping
every key by reference, inserting the `(key, clonedValue)` pairs into the
clone in the original insertion order: the clone's entry list is exactly the
original key list zipped with the cloned values, so its iteration order (and
every key, by identity) equals the original's; and the whole Map path is the
per-entry fold of the recursive cloner with `key` the entry key, `parent`
the Map, and the shared registry. -/
theorem map_clone_preserves_keys (p : Nat) (es : List (Value × Value))
    (h : Heap) (hcl : HeapClosed h.length h)
    (hget : heapGet h p = some (Node.mapN es)) :
    ∃ (h' : Heap) (st' : Registry) (vs : List Value),
      deepClone (Value.ref p) h = some (Value.ref h.length, h', st') ∧
      vs.length = es.length ∧
      heapGet h' h.length = some (Node.mapN ((es.map Prod.fst).zip vs)) ∧
      ((es.map Prod.fst).zip vs).map Prod.fst = es.map Prod.fst ∧
      deepClone (Value.ref p) h =
        (match clonePairs
            (fun v2 k2 ob2 st2 h2 =>
              baseClone h.length v2 CLONE_DEEP_FLAG none k2 ob2 st2 h2)
            (Value.ref p) h.length ChildMode.mapMode es
            (stackSet [] p (Value.ref h.length)) (h ++ [Node.mapN []]) with
         | none => none
         | some (h2, st2) => some (Value.ref h.length, h2, st2)) := by
  have hplt : p < h.length := heapGet_lt_length hget
  have hndOK : nodeOKb h.length (Node.mapN es) = true :=
    heapClosed_node hcl hplt hget
  have hstOK : StackOK h.length (stackSet [] p (Value.ref h.length)) :=
    stackOK_insert ⟨List.nodup_nil, by simp⟩ rfl hplt (le_refl _)
  obtain ⟨h', st', vs, hfold, hlen', hget', hsg', hok', hcl', hvslen, hd'⟩ :=
    clonePairs_map
      (baseClone_recurGrows h.length CLONE_DEEP_FLAG none h.length 1
        (by omega))
      es (Value.ref p) h.length (stackSet [] p (Value.ref h.length))
      (h ++ [Node.mapN []]) []
      (by simp) (heapClosed_append _ (le_refl _) hcl) hstOK
      (by rw [stackSet_length]; simp) (by simp) (le_refl _)
      (mapPairs_valueOK hndOK) (heapGet_append_self h _)
  have hunfold := baseClone_map_unfold h.length p es CLONE_DEEP_FLAG none none
    [] h hget rfl
  refine ⟨h', st', vs, ?_, hvslen, by simpa using hd', ?_, ?_⟩
  · rw [deepClone, hunfold, hfold]
  · exact List.map_fst_zip _ _ (by rw [List.length_map, hvslen])
  · rw [deepClone, hunfold]

theorem map_clone_preserves_keys_witness :
    ∃ (h' : Heap) (st' : Registry) (vs : List Value),
      deepClone (Value.ref 0)
          [Node.mapN [(Value.prim (Prim.string "k1"), Value.prim (Prim.number 1)),
                      (Value.prim (Prim.string "k2"), Value.ref 1)],
           Node.plainN []]
        = some (Value.ref 2, h', st') ∧
      vs.length = 2 ∧
      heapGet h' 2 = some (Node.mapN
        (([(Value.prim (Prim.string "k1"), Value.prim (Prim.number 1)),
           (Value.prim (Prim.string "k2"), Value.ref 1)].map Prod.fst).zip vs)) ∧
      (([(Value.prim (Prim.string "k1"), Value.prim (Prim.number 1)),
         (Value.prim (Prim.string "k2"), Value.ref 1)].map Prod.fst).zip vs).map
          Prod.fst
        = [(Value.prim (Prim.string "k1"), Value.prim (Prim.number 1)),
           (Value.prim (Prim.string "k2"), Value.ref 1)].map Prod.fst ∧
      deepClone (Value.ref 0)
          [Node.mapN [(Value.prim (Prim.string "k1"), Value.prim (Prim.number 1)),
                      (Value.prim (Prim.string "k2"), Value.ref 1)],
           Node.plainN []] =
        (match clonePairs
            (fun v2 k2 ob2 st2 h2 => baseClone 2 v2 CLONE_DEEP_FLAG none k2 ob2 st2 h2)
            (Value.ref 0) 2 ChildMode.mapMode
            [(Value.prim (Prim.string "k1"), Value.prim (Prim.number 1)),
             (Value.prim (Prim.string "k2"), Value.ref 1)]
            (stackSet [] 0 (Value.ref 2))
            ([Node.mapN [(Value.prim (Prim.string "k1"), Value.prim (Prim.number 1)),
                         (Value.prim (Prim.string "k2"), Value.ref 1)],
              Node.plainN []] ++ [Node.mapN []]) with
         | none => none
         | some (h2, st2) => some (Value.ref 2, h2, st2)) :=
  map_clone_preserves_keys 0
    [(Value.prim (Prim.string "k1"), Value.prim (Prim.number 1)),
     (Value.prim (Prim.string "k2"), Value.ref 1)]
    [Node.mapN [(Value.prim (Prim.string "k1"), Value.prim (Prim.number 1)),
                (Value.prim (Prim.string "k2"), Value.ref 1)],
     Node.plainN []]
    (by decide) (by decide)

/-- C9: a buffer is cloned and returned before the registry code runs
(lines 221-223 precede lines 246-251): the registry comes back exactly as it
was passed, so a buffer never receives a registry entry; consequently two
properties referencing the same buffer in one deep clone yield two distinct
buffer copies at distinct fresh addresses, instead of converging on one
shared clone, while the registry ends holding only the parent entry. -/
theorem buffer_no_registry :
    (∀ (fuel a : Nat) (bs : List Nat) (bm : Nat) (k ob : Option Value)
        (st : Registry) (h : Heap), 0 < fuel → deepBit bm = true →
        heapGet h a = some (Node.bufferN bs) →
        baseClone fuel (Value.ref a) bm none k ob st h
          = some (Value.ref h.length, h ++ [Node.bufferN bs], st)) ∧
    (∀ (p q : Nat) (k1 k2 : String) (bs : List Nat) (h : Heap), k1 ≠ k2 →
        heapGet h p = some (Node.plainN [(k1, Value.ref q), (k2, Value.ref q)]) →
        heapGet h q = some (Node.bufferN bs) →
        ∃ (h' : Heap) (ps' : List (String × Value)) (c1 c2 : Nat),
          deepClone (Value.ref p) h
            = some (Value.ref h.length, h', stackSet [] p (Value.ref h.length)) ∧
          heapGet h' h.length = some (Node.plainN ps') ∧
          propGet ps' k1 = some (Value.ref c1) ∧
          propGet ps' k2 = some (Value.ref c2) ∧
          c1 ≠ c2 ∧
          heapGet h' c1 = some (Node.bufferN bs) ∧
          heapGet h' c2 = some (Node.bufferN bs)) := by
  constructor
  · intro fuel a bs bm k ob st h hfuel hdeep hget
    obtain ⟨g, rfl⟩ : ∃ g, fuel = g + 1 := ⟨fuel - 1, by omega⟩
    exact baseClone_buffer_deep g a bs bm hdeep k ob st h hget
  · intro p q k1 k2 bs h hk12 hgetP hgetQ
    have hplt : p < h.length := heapGet_lt_length hgetP
    have hqlt : q < h.length := heapGet_lt_length hgetQ
    obtain ⟨g, hgeq⟩ : ∃ g, h.length = g + 1 := ⟨h.length - 1, by omega⟩
    rw [deepClone, baseClone_deep_plain_unfold h.length p
      [(k1, Value.ref q), (k2, Value.ref q)] CLONE_DEEP_FLAG rfl none none []
      h hgetP rfl]
    rw [childPairs_plain_nodup _ _ [(k1, Value.ref q), (k2, Value.ref q)]
      (by simp [hk12])]
    -- name the intermediate heaps
    set st1 := stackSet [] p (Value.ref h.length) with hst1
    set h1 := h ++ [Node.plainN []] with hh1
    have hlen1 : h1.length = h.length + 1 := by simp [hh1]
    -- first buffer child: a fresh copy at address h.length + 1
    have hgetQ1 : heapGet h1 q = some (Node.bufferN bs) := by
      rw [hh1, heapGet_append_lt h _ q hqlt]; exact hgetQ
    have hchild1 := baseClone_buffer_deep g q bs CLONE_DEEP_FLAG rfl
      (some (Value.prim (Prim.string k1))) (some (Value.ref p)) st1 h1 hgetQ1
    rw [← hgeq] at hchild1
    have hr1 : heapGet (h1 ++ [Node.bufferN bs]) h.length
        = some (Node.plainN []) := by
      rw [heapGet_append_lt h1 _ h.length (by omega), hh1, heapGet_append_self]
    have hassign1 : assignValue (h1 ++ [Node.bufferN bs]) h.length
        (Value.prim (Prim.string k1)) (Value.ref h1.length)
        = heapSet (h1 ++ [Node.bufferN bs]) h.length
            (Node.plainN [(k1, Value.ref h1.length)]) := by
      simp [assignValue, hr1, propSet]
    set h3 := heapSet (h1 ++ [Node.bufferN bs]) h.length
      (Node.plainN [(k1, Value.ref h1.length)]) with hh3
    have hlen3 : h3.length = h.length + 2 := by simp [hh3, heapSet, hlen1]
    -- second buffer child: another fresh copy at address h.length + 2
    have hgetQ3 : heapGet h3 q = some (Node.bufferN bs) := by
      rw [hh3, heapGet_set_ne _ _ _ _ (Nat.ne_of_gt hqlt),
        heapGet_append_lt h1 _ q (by omega), hh1,
        heapGet_append_lt h _ q hqlt]
      exact hgetQ
    have hchild2 := baseClone_buffer_deep g q bs CLONE_DEEP_FLAG rfl
      (some (Value.prim (Prim.string k2))) (some (Value.ref p)) st1 h3 hgetQ3
    rw [← hgeq] at hchild2
    have hr3 : heapGet (h3 ++ [Node.bufferN bs]) h.length
        = some (Node.plainN [(k1, Value.ref h1.length)]) := by
      rw [heapGet_append_lt h3 _ h.length (by omega), hh3]
      exact heapGet_set_self _ _ _ (by rw [List.length_append]; omega)
    have hassign2 : assignValue (h3 ++ [Node.bufferN bs]) h.length
        (Value.prim (Prim.string k2)) (Value.ref h3.length)
        = heapSet (h3 ++ [Node.bufferN bs]) h.length
            (Node.plainN [(k1, Value.ref h1.length), (k2, Value.ref h3.length)]) := by
      simp [assignValue, hr3, propSet, hk12]
    refine ⟨heapSet (h3 ++ [Node.bufferN bs]) h.length
        (Node.plainN [(k1, Value.ref h1.length), (k2, Value.ref h3.length)]),
      [(k1, Value.ref h1.length), (k2, Value.ref h3.length)],
      h1.length, h3.length, ?_, ?_, ?_, ?_, by omega, ?_, ?_⟩
    · simp only [List.map_cons, List.map_nil, clonePairs, hchild1, childWrite,
        hassign1, ← hh3, hchild2, hassign2]
    · exact heapGet_set_self _ _ _ (by rw [List.length_append]; omega)
    · simp [propGet_cons]
    · simp [propGet_cons, hk12]
    · rw [heapGet_set_ne _ _ _ _ (by omega),
        heapGet_append_lt h3 _ h1.length (by omega), hh3,
        heapGet_set_ne _ _ _ _ (by omega), hh1, heapGet_append_self]
    · rw [heapGet_set_ne _ _ _ _ (by omega), heapGet_append_self]

theorem buffer_no_registry_witness :
    0 < 4 ∧ deepBit 1 = true ∧
    heapGet [Node.bufferN [7, 8]] 0 = some (Node.bufferN [7, 8]) ∧
    baseClone 4 (Value.ref 0) 1 none none none [(9, Value.prim Prim.null)]
        [Node.bufferN [7, 8]]
      = some (Value.ref 1, [Node.bufferN [7, 8], Node.bufferN [7, 8]],
          [(9, Value.prim Prim.null)]) ∧
    ("a" : String) ≠ "b" ∧
    ∃ (h' : Heap) (ps' : List (String × Value)) (c1 c2 : Nat),
      deepClone (Value.ref 0)
          [Node.plainN [("a", Value.ref 1), ("b", Value.ref 1)],
           Node.bufferN [7, 8]]
        = some (Value.ref 2, h', stackSet [] 0 (Value.ref 2)) ∧
      heapGet h' 2 = some (Node.plainN ps') ∧
      propGet ps' "a" = some (Value.ref c1) ∧
      propGet ps' "b" = some (Value.ref c2) ∧
      c1 ≠ c2 ∧
      heapGet h' c1 = some (Node.bufferN [7, 8]) ∧
      heapGet h' c2 = some (Node.bufferN [7, 8]) :=
  ⟨by decide, rfl, by decide,
    buffer_no_registry.1 4 0 [7, 8] 1 none none [(9, Value.prim Prim.null)]
      [Node.bufferN [7, 8]] (by decide) rfl (by decide),
    by decide,
    buffer_no_registry.2 0 1 "a" "b" [7, 8]
      [Node.plainN [("a", Value.ref 1), ("b", Value.ref 1)],
       Node.bufferN [7, 8]]
      (by decide) (by decide) (by decide)⟩

/-- C1: for every plain object `a` with a property `"self"` referring to `a`
itself (and arbitrary further properties, on any closed heap), the deep
clone terminates, and the clone's `"self"` property refers to the clone
itself — the fresh address `h.length` — not to the original `a`. -/
theorem deepClone_self_cycle (p : Nat) (props : List (String × Value))
    (h : Heap) (hcl : HeapClosed h.length h)
    (hget : heapGet h p = some (Node.plainN props))
    (hself : ("self", Value.ref p) ∈ props)
    (hnd : (props.map Prod.fst).Nodup) :
    ∃ (h' : Heap) (st' : Registry) (ps' : List (String × Value)),
      deepClone (Value.ref p) h = some (Value.ref h.length, h', st') ∧
      heapGet h' h.length = some (Node.plainN ps') ∧
      propGet ps' "self" = some (Value.ref h.length) ∧
      h.length ≠ p := by
  have hplt : p < h.length := heapGet_lt_length hget
  have hndOK : nodeOKb h.length (Node.plainN props) = true :=
    heapClosed_node hcl hplt hget
  obtain ⟨pre, post, hsplit⟩ := List.append_of_mem hself
  have hvalsAll := plainPairs_valueOK hndOK
  have hpostkeys : ∀ q ∈ post.map
      (fun e => (Value.prim (Prim.string e.1), e.2)),
      q.1 ≠ Value.prim (Prim.string "self") := by
    intro q hq
    rcases List.mem_map.1 hq with ⟨e, he, rfl⟩
    intro hcon
    have he1 : e.1 = "self" := by
      injection hcon with hc1
      injection hc1
    have : ("self" :: post.map Prod.fst).Nodup := by
      have := hsplit ▸ hnd
      rw [List.map_append] at this
      simpa using this.of_append_right
    rw [List.nodup_cons] at this
    exact this.1 (List.mem_map.2 ⟨e, he, he1⟩)
  have hstOK : StackOK h.length (stackSet [] p (Value.ref h.length)) :=
    stackOK_insert ⟨List.nodup_nil, by simp⟩ rfl hplt (le_refl _)
  have Hrec := baseClone_recurGrows h.length CLONE_DEEP_FLAG none h.length 1
    (by omega)
  -- fold over the properties before "self"
  obtain ⟨h2, st2, ps2, hfold1, hlen2, hget2, hsg2, hok2, hcl2, hd2, -⟩ :=
    clonePairs_assign Hrec
      (pre.map (fun e => (Value.prim (Prim.string e.1), e.2))) (Value.ref p)
      h.length (stackSet [] p (Value.ref h.length)) (h ++ [Node.plainN []]) []
      (by simp) (heapClosed_append _ (le_refl _) hcl) hstOK
      (by rw [stackSet_length]; simp) (by simp) (le_refl _)
      (by
        intro q hq
        refine hvalsAll q ?_
        rw [hsplit, List.map_append]
        exact List.mem_append.2 (Or.inl hq))
      (heapGet_append_self h _)
  -- the "self" child hits the registry and returns the shell reference
  have hregp : stackGet st2 p = some (Value.ref h.length) :=
    hsg2.2 p _ (stackGet_stackSet_self _ rfl)
  have hgetp2 : heapGet h2 p = some (Node.plainN props) := by
    rw [hget2 p (by simp; omega) (Nat.ne_of_lt hplt),
      heapGet_append_lt h _ p hplt]
    exact hget
  obtain ⟨v3, h3, st3, heq3, hg3, hs3, hok3, hB3⟩ :=
    baseClone_bundle h.length CLONE_DEEP_FLAG none h.length (Value.ref p)
      (some (Value.prim (Prim.string "self"))) (some (Value.ref p)) st2 h2
      (le_trans (by simp) hlen2) hcl2 hok2 (valueOK_of_lt hplt)
      (by have := hsg2.1; rw [stackSet_length] at this; simp at this; omega)
  obtain ⟨hv3, hst3⟩ := (hB3 rfl p (Node.plainN props) rfl hgetp2 rfl).1
    (Value.ref h.length) hregp
  subst hv3
  -- write the registered shell reference into the shell's "self" property
  have hNlt2 : h.length < h2.length := lt_of_lt_of_le (by simp) hlen2
  have hd3 : heapGet h3 h.length = some (Node.plainN ps2) := by
    rw [hg3.2 h.length hNlt2]
    exact hd2
  have hassign : assignValue h3 h.length (Value.prim (Prim.string "self"))
      (Value.ref h.length)
      = heapSet h3 h.length (Node.plainN (propSet ps2 "self" (Value.ref h.length))) := by
    simp [assignValue, hd3]
  have hNlt3 : h.length < h3.length := lt_of_lt_of_le hNlt2 hg3.1
  have hcl3 : HeapClosed h.length h3 :=
    heapClosed_mono hcl2 (fun i hi => hg3.2 i (lt_of_lt_of_le hi (le_of_lt hNlt2)))
  -- fold over the properties after "self"
  obtain ⟨h5, st5, ps5, hfold3, hlen5, hget5, hsg5, hok5, hcl5, hd5, hpres5⟩ :=
    clonePairs_assign Hrec
      (post.map (fun e => (Value.prim (Prim.string e.1), e.2))) (Value.ref p)
      h.length st3
      (heapSet h3 h.length (Node.plainN (propSet ps2 "self" (Value.ref h.length))))
      (propSet ps2 "self" (Value.ref h.length))
      (by rw [heapSet_length]; omega)
      (heapClosed_mono hcl3 (fun i hi =>
        heapGet_set_ne _ _ _ _ (Nat.ne_of_gt hi)))
      hok3
      (by
        have := hsg2.1
        rw [stackSet_length] at this
        simp at this
        rw [hst3]
        omega)
      (by rw [heapSet_length]; omega) (le_refl _)
      (by
        intro q hq
        refine hvalsAll q ?_
        rw [hsplit, List.map_append, List.map_cons]
        exact List.mem_append.2 (Or.inr (List.mem_cons_of_mem _ hq)))
      (heapGet_set_self h3 h.length _ hNlt3)
  refine ⟨h5, st5, ps5, ?_,
    hd5, hpres5 "self" (Value.ref h.length) (propGet_propSet_self _ _ _)
      hpostkeys,
    Nat.ne_of_gt hplt⟩
  rw [deepClone, baseClone_deep_plain_unfold h.length p props CLONE_DEEP_FLAG
    rfl none none [] h hget rfl]
  rw [childPairs_plain_nodup _ _ props hnd, hsplit, List.map_append,
    List.map_cons, clonePairs_append, hfold1]
  simp only [clonePairs, heq3, childWrite, hassign]
  rw [hfold3]

theorem deepClone_self_cycle_witness :
    ∃ (h' : Heap) (st' : Registry) (ps' : List (String × Value)),
      deepClone (Value.ref 0) [Node.plainN [("self", Value.ref 0)]]
        = some (Value.ref 1, h', st') ∧
      heapGet h' 1 = some (Node.plainN ps') ∧
      propGet ps' "self" = some (Value.ref 1) ∧
      (1 : Nat) ≠ 0 :=
  deepClone_self_cycle 0 [("self", Value.ref 0)]
    [Node.plainN [("self", Value.ref 0)]]
    (by decide) (by decide) (by decide) (by decide)

/-- C2: for a plain object with two properties `k1` and `k2` both holding a
reference to the same shared plain object (at address `q`, with arbitrary
properties before, between and after them), the deep clone resolves both
properties to the very same single clone reference — one fresh address `b`
in the clone region — not to two separate clones, and not to the original. -/
theorem deepClone_shared_ref_converges (p q : Nat)
    (pre mid post : List (String × Value)) (k1 k2 : String)
    (qs : List (String × Value)) (h : Heap)
    (hcl : HeapClosed h.length h)
    (hget : heapGet h p = some (Node.plainN
      ((pre ++ (k1, Value.ref q) :: mid) ++ (k2, Value.ref q) :: post)))
    (hgetQ : heapGet h q = some (Node.plainN qs))
    (hnd : (((pre ++ (k1, Value.ref q) :: mid) ++ (k2, Value.ref q) :: post).map
      Prod.fst).Nodup) :
    ∃ (h' : Heap) (st' : Registry) (ps' : List (String × Value)) (b : Nat),
      deepClone (Value.ref p) h = some (Value.ref h.length, h', st') ∧
      heapGet h' h.length = some (Node.plainN ps') ∧
      propGet ps' k1 = some (Value.ref b) ∧
      propGet ps' k2 = some (Value.ref b) ∧
      Value.ref b ≠ Value.ref q ∧ h.length ≤ b := by
  have hplt : p < h.length := heapGet_lt_length hget
  have hqlt : q < h.length := heapGet_lt_length hgetQ
  have hndOK := heapClosed_node hcl hplt hget
  have hvalsAll := plainPairs_valueOK hndOK
  -- key disjointness facts from Nodup
  have hshape : (((pre ++ (k1, Value.ref q) :: mid) ++ (k2, Value.ref q) :: post).map
      Prod.fst)
      = (pre.map Prod.fst ++ k1 :: mid.map Prod.fst) ++ k2 :: post.map Prod.fst := by
    simp [List.map_append]
  rw [hshape] at hnd
  obtain ⟨hndA, hndB, hdisj⟩ := List.nodup_append.1 hnd
  have hk1mem : k1 ∈ pre.map Prod.fst ++ k1 :: mid.map Prod.fst :=
    List.mem_append.2 (Or.inr (List.mem_cons_self _ _))
  have hk1nB : k1 ∉ k2 :: post.map Prod.fst := hdisj hk1mem
  have hk21 : k2 ≠ k1 := by
    intro he
    exact hk1nB (he ▸ List.mem_cons_self _ _)
  have hk1nmid : k1 ∉ mid.map Prod.fst := by
    have := hndA.of_append_right
    rw [List.nodup_cons] at this
    exact this.1
  rw [List.nodup_cons] at hndB
  have hmidk1 : ∀ e ∈ mid.map
      (fun e => (Value.prim (Prim.string e.1), e.2)),
      e.1 ≠ Value.prim (Prim.string k1) := by
    intro e he hcon
    rcases List.mem_map.1 he with ⟨e0, he0, rfl⟩
    have : e0.1 = k1 := by injection hcon with hc; injection hc
    exact hk1nmid (List.mem_map.2 ⟨e0, he0, this⟩)
  have hpostk1 : ∀ e ∈ post.map
      (fun e => (Value.prim (Prim.string e.1), e.2)),
      e.1 ≠ Value.prim (Prim.string k1) := by
    intro e he hcon
    rcases List.mem_map.1 he with ⟨e0, he0, rfl⟩
    have : e0.1 = k1 := by injection hcon with hc; injection hc
    exact hk1nB (List.mem_cons_of_mem _ (List.mem_map.2 ⟨e0, he0, this⟩))
  have hpostk2 : ∀ e ∈ post.map
      (fun e => (Value.prim (Prim.string e.1), e.2)),
      e.1 ≠ Value.prim (Prim.string k2) := by
    intro e he hcon
    rcases List.mem_map.1 he with ⟨e0, he0, rfl⟩
    have : e0.1 = k2 := by injection hcon with hc; injection hc
    exact hndB.1 (List.mem_map.2 ⟨e0, he0, this⟩)
  have hstOK : StackOK h.length (stackSet [] p (Value.ref h.length)) :=
    stackOK_insert ⟨List.nodup_nil, by simp⟩ rfl hplt (le_refl _)
  have Hrec := baseClone_recurGrows h.length CLONE_DEEP_FLAG none h.length 1
    (by omega)
  -- fold over `pre`
  obtain ⟨h2, st2, ps2, hfold1, hlen2, hget2, hsg2, hok2, hcl2, hd2, -⟩ :=
    clonePairs_assign Hrec
      (pre.map (fun e => (Value.prim (Prim.string e.1), e.2))) (Value.ref p)
      h.length (stackSet [] p (Value.ref h.length)) (h ++ [Node.plainN []]) []
      (by simp) (heapClosed_append _ (le_refl _) hcl) hstOK
      (by rw [stackSet_length]; simp) (by simp) (le_refl _)
      (by
        intro e he
        refine hvalsAll e ?_
        simp only [List.map_append, List.map_cons]
        exact List.mem_append.2 (Or.inl (List.mem_append.2 (Or.inl he))))
      (heapGet_append_self h _)
  have hst2len : 1 ≤ st2.length := by
    have := hsg2.1
    rw [stackSet_length] at this
    simp at this
    omega
  -- first shared-reference child
  have hgetq2 : heapGet h2 q = some (Node.plainN qs) := by
    rw [hget2 q (by simp; omega) (Nat.ne_of_lt hqlt),
      heapGet_append_lt h _ q hqlt]
    exact hgetQ
  obtain ⟨v3, h3, st3, heq3, hg3, hs3, hok3, hB3⟩ :=
    baseClone_bundle h.length CLONE_DEEP_FLAG none h.length (Value.ref q)
      (some (Value.prim (Prim.string k1))) (some (Value.ref p)) st2 h2
      (le_trans (by simp) hlen2) hcl2 hok2 (valueOK_of_lt hqlt) (by omega)
  obtain ⟨b, hNb, hv3, hreg⟩ :
      ∃ b, h.length ≤ b ∧ v3 = Value.ref b ∧
        stackGet st3 q = some (Value.ref b) := by
    cases hq2 : stackGet st2 q with
    | some c =>
      obtain ⟨hv3, hst3⟩ := (hB3 rfl q (Node.plainN qs) rfl hgetq2 rfl).1 c hq2
      obtain ⟨b, rfl, hNb⟩ := stackGet_some_entryOK hok2 hq2
      exact ⟨b, hNb, hv3, by rw [hst3]; exact hq2⟩
    | none =>
      obtain ⟨hv3, hreg⟩ := (hB3 rfl q (Node.plainN qs) rfl hgetq2 rfl).2 hq2
      exact ⟨h2.length, le_trans (by simp) hlen2, hv3, hreg⟩
  subst hv3
  -- write k1
  have hNlt2 : h.length < h2.length := lt_of_lt_of_le (by simp) hlen2
  have hNlt3 : h.length < h3.length := lt_of_lt_of_le hNlt2 hg3.1
  have hd3 : heapGet h3 h.length = some (Node.plainN ps2) := by
    rw [hg3.2 h.length hNlt2]
    exact hd2
  have hassign1 : assignValue h3 h.length (Value.prim (Prim.string k1))
      (Value.ref b)
      = heapSet h3 h.length (Node.plainN (propSet ps2 k1 (Value.ref b))) := by
    simp [assignValue, hd3]
  have hcl3 : HeapClosed h.length h3 :=
    heapClosed_mono hcl2 (fun i hi =>
      hg3.2 i (lt_of_lt_of_le hi (le_of_lt hNlt2)))
  have e1 := heapSet_length h3 h.length
    (Node.plainN (propSet ps2 k1 (Value.ref b)))
  -- fold over `mid`
  obtain ⟨h5, st5, ps5, hfold2, hlen5, hget5, hsg5, hok5, hcl5, hd5, hpres5⟩ :=
    clonePairs_assign Hrec
      (mid.map (fun e => (Value.prim (Prim.string e.1), e.2))) (Value.ref p)
      h.length st3
      (heapSet h3 h.length (Node.plainN (propSet ps2 k1 (Value.ref b))))
      (propSet ps2 k1 (Value.ref b))
      (by omega)
      (heapClosed_mono hcl3 (fun i hi =>
        heapGet_set_ne _ _ _ _ (Nat.ne_of_gt hi)))
      hok3
      (by have := hs3.1; omega)
      (by omega) (le_refl _)
      (by
        intro e he
        refine hvalsAll e ?_
        simp only [List.map_append, List.map_cons]
        exact List.mem_append.2 (Or.inl
          (List.mem_append.2 (Or.inr (List.mem_cons_of_mem _ he)))))
      (heapGet_set_self h3 h.length _ hNlt3)
  have hk1kept : propGet ps5 k1 = some (Value.ref b) :=
    hpres5 k1 (Value.ref b) (propGet_propSet_self _ _ _) hmidk1
  have hNlt5 : h.length < h5.length := by omega
  -- second shared-reference child: a registry hit on the same clone
  have hq5 : stackGet st5 q = some (Value.ref b) := hsg5.2 q _ hreg
  have hgetq5 : heapGet h5 q = some (Node.plainN qs) := by
    rw [hget5 q (by omega) (Nat.ne_of_lt hqlt),
      heapGet_set_ne _ _ _ _ (Nat.ne_of_gt hqlt),
      hg3.2 q (by omega)]
    exact hgetq2
  obtain ⟨v6, h6, st6, heq6, hg6, hs6, hok6, hB6⟩ :=
    baseClone_bundle h.length CLONE_DEEP_FLAG none h.length (Value.ref q)
      (some (Value.prim (Prim.string k2))) (some (Value.ref p)) st5 h5
      (le_of_lt hNlt5) hcl5 hok5 (valueOK_of_lt hqlt)
      (by
        have l1 := hs3.1
        have l2 := hsg5.1
        omega)
  obtain ⟨hv6, hst6⟩ := (hB6 rfl q (Node.plainN qs) rfl hgetq5 rfl).1
    (Value.ref b) hq5
  subst hv6
  -- write k2
  have hNlt6 : h.length < h6.length := lt_of_lt_of_le hNlt5 hg6.1
  have hd6 : heapGet h6 h.length = some (Node.plainN ps5) := by
    rw [hg6.2 h.length hNlt5]
    exact hd5
  have hassign2 : assignValue h6 h.length (Value.prim (Prim.string k2))
      (Value.ref b)
      = heapSet h6 h.length (Node.plainN (propSet ps5 k2 (Value.ref b))) := by
    simp [assignValue, hd6]
  have hcl6 : HeapClosed h.length h6 :=
    heapClosed_mono hcl5 (fun i hi =>
      hg6.2 i (lt_of_lt_of_le hi (le_of_lt hNlt5)))
  have e2 := heapSet_length h6 h.length
    (Node.plainN (propSet ps5 k2 (Value.ref b)))
  -- fold over `post`
  obtain ⟨h8, st8, ps8, hfold3, hlen8, hget8, hsg8, hok8, hcl8, hd8, hpres8⟩ :=
    clonePairs_assign Hrec
      (post.map (fun e => (Value.prim (Prim.string e.1), e.2))) (Value.ref p)
      h.length st6
      (heapSet h6 h.length (Node.plainN (propSet ps5 k2 (Value.ref b))))
      (propSet ps5 k2 (Value.ref b))
      (by omega)
      (heapClosed_mono hcl6 (fun i hi =>
        heapGet_set_ne _ _ _ _ (Nat.ne_of_gt hi)))
      hok6
      (by
        have l1 := hs6.1
        have l2 := hsg5.1
        have l3 := hs3.1
        omega)
      (by omega) (le_refl _)
      (by
        intro e he
        refine hvalsAll e ?_
        simp only [List.map_append, List.map_cons]
        exact List.mem_append.2 (Or.inr (List.mem_cons_of_mem _ he)))
      (heapGet_set_self h6 h.length _ hNlt6)
  refine ⟨h8, st8, ps8, b, ?_, hd8, ?_, ?_, ?_, hNb⟩
  · rw [deepClone, baseClone_deep_plain_unfold h.length p _ CLONE_DEEP_FLAG
      rfl none none [] h hget rfl]
    rw [childPairs_plain_nodup _ _ _ (hshape ▸ hnd)]
    simp only [List.map_append, List.map_cons]
    rw [clonePairs_append, clonePairs_append, hfold1]
    simp only [clonePairs, heq3, childWrite, hassign1]
    rw [hfold2]
    simp only [clonePairs, heq6, childWrite, hassign2]
    rw [hst6] at hfold3 ⊢
    rw [hfold3]
  · refine hpres8 k1 (Value.ref b) ?_ hpostk1
    rw [propGet_propSet_ne _ _ _ _ hk21]
    exact hk1kept
  · exact hpres8 k2 (Value.ref b) (propGet_propSet_self _ _ _) hpostk2
  · intro hcon
    injection hcon with he
    omega

theorem deepClone_shared_ref_converges_witness :
    ∃ (h' : Heap) (st' : Registry) (ps' : List (String × Value)) (b : Nat),
      deepClone (Value.ref 0)
          [Node.plainN [("left", Value.ref 1), ("right", Value.ref 1)],
           Node.plainN [("x", Value.prim (Prim.number 7))]]
        = some (Value.ref 2, h', st') ∧
      heapGet h' 2 = some (Node.plainN ps') ∧
      propGet ps' "left" = some (Value.ref b) ∧
      propGet ps' "right" = some (Value.ref b) ∧
      Value.ref b ≠ Value.ref 1 ∧ 2 ≤ b :=
  deepClone_shared_ref_converges 0 1 [] [] [] "left" "right"
    [("x", Value.prim (Prim.number 7))]
    [Node.plainN [("left", Value.ref 1), ("right", Value.ref 1)],
     Node.plainN [("x", Value.prim (Prim.number 7))]]
    (by decide) (by decide) (by decide) (by decide)

/-- C10: a shallow (non-Deep) clone of a Map or Set still rebuilds the
collection entry by entry, recursively invoking the clone routine on every
entry value with the same non-Deep flags (first clause: the Map path is the
recursive per-entry fold under bitmask 0); consequently a plain-object-valued
entry of the shallow clone is a fresh one-level copy at a new address — the
same property list, shared grandchildren — and not the same reference as the
original entry (second clause for Maps, third for Sets). -/
theorem shallow_collection_rebuilds (h : Heap) (p : Nat) :
    (∀ es, heapGet h p = some (Node.mapN es) →
      shallowClone (Value.ref p) h =
        (match clonePairs
            (fun v2 k2 ob2 st2 h2 => baseClone h.length v2 0 none k2 ob2 st2 h2)
            (Value.ref p) h.length ChildMode.mapMode es
            (stackSet [] p (Value.ref h.length)) (h ++ [Node.mapN []]) with
         | none => none
         | some (h2, st2) => some (Value.ref h.length, h2, st2))) ∧
    (∀ (pre post : List (Value × Value)) (k0 : Value) (c0 : Nat)
        (cps : List (String × Value)), HeapClosed h.length h →
      heapGet h p = some (Node.mapN (pre ++ (k0, Value.ref c0) :: post)) →
      heapGet h c0 = some (Node.plainN cps) →
      ∃ (h' : Heap) (st' : Registry) (es1 es2 : List (Value × Value)) (c' : Nat),
        shallowClone (Value.ref p) h = some (Value.ref h.length, h', st') ∧
        heapGet h' h.length
          = some (Node.mapN (es1 ++ (k0, Value.ref c') :: es2)) ∧
        es1.length = pre.length ∧
        c' ≠ c0 ∧ h.length ≤ c' ∧
        heapGet h' c' = some (Node.plainN cps) ∧
        (es1 ++ (k0, Value.ref c') :: es2).map Prod.fst
          = (pre ++ (k0, Value.ref c0) :: post).map Prod.fst) ∧
    (∀ (elems : List Value) (i c0 : Nat) (cps : List (String × Value)),
      heapGet h p = some (Node.setN elems) →
      (∀ v ∈ elems, ∃ (c : Nat) (ps : List (String × Value)),
        v = Value.ref c ∧ heapGet h c = some (Node.plainN ps)) →
      elems[i]? = some (Value.ref c0) →
      heapGet h c0 = some (Node.plainN cps) →
      ∃ (h' : Heap) (cs : List Nat) (c' : Nat),
        shallowClone (Value.ref p) h
          = some (Value.ref h.length, h', stackSet [] p (Value.ref h.length)) ∧
        heapGet h' h.length = some (Node.setN (cs.map Value.ref)) ∧
        cs.length = elems.length ∧
        cs[i]? = some c' ∧ h.length ≤ c' ∧ c' ≠ c0 ∧
        heapGet h' c' = some (Node.plainN cps)) := by
  refine ⟨?_, ?_, ?_⟩
  · intro es hes
    rw [shallowClone, baseClone_map_unfold h.length p es 0 none none [] h hes rfl]
  · intro pre post k0 c0 cps hcl hes hc0
    have hplt : p < h.length := heapGet_lt_length hes
    have hc0lt : c0 < h.length := heapGet_lt_length hc0
    obtain ⟨g, hgeq⟩ : ∃ g, h.length = g + 1 := ⟨h.length - 1, by omega⟩
    have hndOK := heapClosed_node hcl hplt hes
    have hvalsAll := mapPairs_valueOK hndOK
    have hstOK : StackOK h.length (stackSet [] p (Value.ref h.length)) :=
      stackOK_insert ⟨List.nodup_nil, by simp⟩ rfl hplt (le_refl _)
    have Hrec := baseClone_recurGrows h.length 0 none h.length 1 (by omega)
    -- fold over the entries before the target
    obtain ⟨h2, st2, vs2, hfold1, hlen2, hget2, hsg2, hok2, hcl2, hvs2len, hd2⟩ :=
      clonePairs_map Hrec pre (Value.ref p) h.length
        (stackSet [] p (Value.ref h.length)) (h ++ [Node.mapN []]) []
        (by simp) (heapClosed_append _ (le_refl _) hcl) hstOK
        (by rw [stackSet_length]; simp) (by simp) (le_refl _)
        (fun q hq => hvalsAll q (List.mem_append.2 (Or.inl hq)))
        (heapGet_append_self h _)
    have hNlt2 : h.length < h2.length := lt_of_lt_of_le (by simp) hlen2
    -- the target entry: an exact shallow one-level copy of the plain object
    have hgetc2 : heapGet h2 c0 = some (Node.plainN cps) := by
      rw [hget2 c0 (by simp; omega) (Nat.ne_of_lt hc0lt),
        heapGet_append_lt h _ c0 hc0lt]
      exact hc0
    have hchild := baseClone_shallow_plain g c0 cps 0 rfl (some k0)
      (some (Value.ref p)) st2 h2 hgetc2
    rw [← hgeq] at hchild
    have hd2' : heapGet (h2 ++ [Node.plainN cps]) h.length
        = some (Node.mapN ([] ++ (pre.map Prod.fst).zip vs2)) := by
      rw [heapGet_append_lt h2 _ h.length hNlt2]
      exact hd2
    have hw : childWrite (h2 ++ [Node.plainN cps]) h.length ChildMode.mapMode
        k0 (Value.ref h2.length)
        = heapSet (h2 ++ [Node.plainN cps]) h.length
            (Node.mapN (([] ++ (pre.map Prod.fst).zip vs2)
              ++ [(k0, Value.ref h2.length)])) := by
      simp [childWrite, hd2']
    have hset_len : (heapSet (h2 ++ [Node.plainN cps]) h.length
        (Node.mapN (([] ++ (pre.map Prod.fst).zip vs2)
          ++ [(k0, Value.ref h2.length)]))).length = h2.length + 1 := by
      simp [heapSet]
    -- fold over the entries after the target
    obtain ⟨h5, st5, vs5, hfold3, hlen5, hget5, hsg5, hok5, hcl5, hvs5len, hd5⟩ :=
      clonePairs_map Hrec post (Value.ref p) h.length st2
        (heapSet (h2 ++ [Node.plainN cps]) h.length
          (Node.mapN (([] ++ (pre.map Prod.fst).zip vs2)
            ++ [(k0, Value.ref h2.length)])))
        (([] ++ (pre.map Prod.fst).zip vs2) ++ [(k0, Value.ref h2.length)])
        (by omega)
        (heapClosed_mono
          (heapClosed_append [Node.plainN cps] (le_of_lt hNlt2) hcl2)
          (fun i hi => heapGet_set_ne _ _ _ _ (Nat.ne_of_gt hi)))
        hok2
        (by
          have := hsg2.1
          rw [stackSet_length] at this
          simp at this
          omega)
        (by omega) (le_refl _)
        (fun q hq => hvalsAll q
          (List.mem_append.2 (Or.inr (List.mem_cons_of_mem _ hq))))
        (heapGet_set_self _ h.length _ (by simp; omega))
    refine ⟨h5, st5, (pre.map Prod.fst).zip vs2,
      (post.map Prod.fst).zip vs5, h2.length, ?_, ?_, ?_, by omega, by omega,
      ?_, ?_⟩
    · rw [shallowClone, baseClone_map_unfold h.length p _ 0 none none [] h
        hes rfl, clonePairs_append, hfold1]
      simp only [clonePairs, hchild, hw]
      rw [hfold3]
    · rw [hd5]
      simp [List.append_assoc]
    · simp [List.length_zip, hvs2len]
    · rw [hget5 h2.length (by omega) (by omega),
        heapGet_set_ne _ _ _ _ (by omega), heapGet_append_self]
    · simp only [List.map_append, List.map_cons]
      rw [List.map_fst_zip _ _ (by rw [List.length_map, hvs2len]),
        List.map_fst_zip _ _ (by rw [List.length_map, hvs5len])]
  · intro elems i c0 cps hes helems hidx hc0
    have hplt : p < h.length := heapGet_lt_length hes
    have hc0lt : c0 < h.length := heapGet_lt_length hc0
    obtain ⟨g, hgeq⟩ : ∃ g, h.length = g + 1 := ⟨h.length - 1, by omega⟩
    have Hexact : ∀ (a2 : Nat) (ps2 : List (String × Value)) (k2 ob2 : Option Value)
        (st2 : Registry) (h2 : Heap), heapGet h2 a2 = some (Node.plainN ps2) →
        baseClone h.length (Value.ref a2) 0 none k2 ob2 st2 h2
          = some (Value.ref h2.length, h2 ++ [Node.plainN ps2], st2) := by
      intro a2 ps2 k2 ob2 st2 h2 hg2
      rw [hgeq]
      exact baseClone_shallow_plain g a2 ps2 0 rfl k2 ob2 st2 h2 hg2
    obtain ⟨h', cs, hfold, hlen, hget', hcslen, hd', hidxc⟩ :=
      clonePairs_set_plain
        (fun v2 k2 ob2 st2 h2 => baseClone h.length v2 0 none k2 ob2 st2 h2)
        Hexact elems (Value.ref p) h.length (stackSet [] p (Value.ref h.length))
        (h ++ [Node.setN []]) []
        (by simp)
        (by
          intro v hv
          obtain ⟨c, ps, rfl, hcget⟩ := helems v hv
          have hclt : c < h.length := heapGet_lt_length hcget
          refine ⟨c, ps, rfl, by simp; omega, Nat.ne_of_lt hclt, ?_⟩
          rw [heapGet_append_lt h _ c hclt]
          exact hcget)
        (heapGet_append_self h _)
        (by simp)
    obtain ⟨c', hcs, hc'ge, hc'node⟩ := hidxc i c0 cps hidx
      (by
        rw [heapGet_append_lt h _ c0 hc0lt]
        exact hc0)
    have hc'ge2 : h.length + 1 ≤ c' := by simpa using hc'ge
    refine ⟨h', cs, c', ?_, by simpa using hd', by simpa using hcslen, hcs,
      by omega, by omega, hc'node⟩
    rw [shallowClone, baseClone_set_unfold h.length p elems 0 none none [] h
      hes rfl, hfold]

theorem shallow_collection_rebuilds_witness :
    (shallowClone (Value.ref 0)
        [Node.mapN [(Value.prim (Prim.string "x"), Value.ref 1)],
         Node.plainN [("pp", Value.prim (Prim.number 3))]] =
      (match clonePairs
          (fun v2 k2 ob2 st2 h2 => baseClone 2 v2 0 none k2 ob2 st2 h2)
          (Value.ref 0) 2 ChildMode.mapMode
          [(Value.prim (Prim.string "x"), Value.ref 1)]
          (stackSet [] 0 (Value.ref 2))
          ([Node.mapN [(Value.prim (Prim.string "x"), Value.ref 1)],
            Node.plainN [("pp", Value.prim (Prim.number 3))]]
            ++ [Node.mapN []]) with
       | none => none
       | some (h2, st2) => some (Value.ref 2, h2, st2))) ∧
    (∃ (h' : Heap) (st' : Registry) (es1 es2 : List (Value × Value)) (c' : Nat),
      shallowClone (Value.ref 0)
          [Node.mapN [(Value.prim (Prim.string "x"), Value.ref 1)],
           Node.plainN [("pp", Value.prim (Prim.number 3))]]
        = some (Value.ref 2, h', st') ∧
      heapGet h' 2 = some (Node.mapN
        (es1 ++ (Value.prim (Prim.string "x"), Value.ref c') :: es2)) ∧
      es1.length = List.length ([] : List (Value × Value)) ∧
      c' ≠ 1 ∧ 2 ≤ c' ∧
      heapGet h' c' = some (Node.plainN [("pp", Value.prim (Prim.number 3))]) ∧
      (es1 ++ (Value.prim (Prim.string "x"), Value.ref c') :: es2).map Prod.fst
        = (([] : List (Value × Value))
            ++ (Value.prim (Prim.string "x"), Value.ref 1)
              :: ([] : List (Value × Value))).map Prod.fst) ∧
    (∃ (h' : Heap) (cs : List Nat) (c' : Nat),
      shallowClone (Value.ref 0)
          [Node.setN [Value.ref 1],
           Node.plainN [("pp", Value.prim (Prim.number 3))]]
        = some (Value.ref 2, h', stackSet [] 0 (Value.ref 2)) ∧
      heapGet h' 2 = some (Node.setN (cs.map Value.ref)) ∧
      cs.length = 1 ∧
      cs[0]? = some c' ∧ 2 ≤ c' ∧ c' ≠ 1 ∧
      heapGet h' c' = some (Node.plainN [("pp", Value.prim (Prim.number 3))])) := by
  refine ⟨?_, ?_, ?_⟩
  · exact (shallow_collection_rebuilds
      [Node.mapN [(Value.prim (Prim.string "x"), Value.ref 1)],
       Node.plainN [("pp", Value.prim (Prim.number 3))]] 0).1
      [(Value.prim (Prim.string "x"), Value.ref 1)] (by decide)
  · exact (shallow_collection_rebuilds
      [Node.mapN [(Value.prim (Prim.string "x"), Value.ref 1)],
       Node.plainN [("pp", Value.prim (Prim.number 3))]] 0).2.1
      [] [] (Value.prim (Prim.string "x")) 1
      [("pp", Value.prim (Prim.number 3))]
      (by decide) (by decide) (by decide)
  · exact (shallow_collection_rebuilds
      [Node.setN [Value.ref 1],
       Node.plainN [("pp", Value.prim (Prim.number 3))]] 0).2.2
      [Value.ref 1] 0 1 [("pp", Value.prim (Prim.number 3))]
      (by decide)
      (by
        intro v hv
        rw [List.mem_singleton] at hv
        subst hv
        exact ⟨1, [("pp", Value.prim (Prim.number 3))], rfl, by decide⟩)
      (by decide) (by decide)

theorem shallow_clone_shares_children_witness :
    (shallowClone (Value.ref 0)
        [Node.plainN [("child", Value.ref 1)], Node.plainN []]
      = some (Value.ref 2,
          [Node.plainN [("child", Value.ref 1)], Node.plainN [],
           Node.plainN [("child", Value.ref 1)]], [])) ∧
    ∃ ps', heapGet ([Node.plainN [("child", Value.ref 1)], Node.plainN []]
        ++ [Node.plainN [("child", Value.ref 1)]]) 2
        = some (Node.plainN ps') ∧
      propGet ps' "child" = some (Value.ref 1) := by
  have H := (shallow_clone_shares_children 0
    [Node.plainN [("child", Value.ref 1)], Node.plainN []]).1
    [("child", Value.ref 1)] (by decide)
  exact ⟨H.1, H.2 "child" 1 (by decide)⟩

end Lodash
